import Mathlib

/-!
Verification development for the pigsty signature compiler (src/pigsty.c).

The C code is shallowly embedded over `List Char` buffers.  A C `char *`
cursor into the NUL-terminated buffer is modelled as a `Nat` index; reading
at or past the end of the list yields the NUL character, exactly as reading
the C buffer's terminator does.  C `int` values are modelled as `Int`
together with an explicit 32-bit wrap-around where the C code can overflow
(the embedding assumes the ubiquitous ILP32/LP64 model: `int` is 32 bits,
`long`/`size_t`/`unsigned long` are at least 64 bits, two's complement,
little-endian; conversions of out-of-range values to `int` wrap).

Every loop of the C code is embedded as a fuel-indexed structural recursion
so that all definitions compute by kernel reduction.  The fuel of each
top-level wrapper is `buffer length + 8`, which is strictly larger than the
number of iterations any of the embedded loops can perform (every loop
advances its cursor by at least one per iteration and stops at NUL, i.e.
at or before the end of the buffer); the fuel-exhaustion branches are
therefore dead code for the wrappers.
-/

set_option maxRecDepth 8000

/-- NUL terminator character of C strings. -/
def NUL : Char := Char.ofNat 0

/-- Read the buffer at index `i`; out-of-range reads yield the terminator,
like reading a C buffer at its trailing NUL. -/
def chAt (s : List Char) (i : Nat) : Char := s.getD i NUL

/-- Convert a Lean string literal to the `List Char` buffer representation. -/
def lc (s : String) : List Char := s.toList

/-- Embedding of the macro `is_pigsty_blank` (pigsty.c line 17). -/
def is_pigsty_blank (c : Char) : Bool :=
  c == ' ' || c == '\t' || c == '\n' || c == '\r'

/-- Embedding of the macro `is_pigsty_comment` (pigsty.c line 19). -/
def is_pigsty_comment (c : Char) : Bool := c == '#'

/-- Embedding of C `isdigit` restricted to the ASCII digits. -/
def isdigit_c (c : Char) : Bool := 48 ≤ c.toNat && c.toNat ≤ 57

/-- Embedding of C `isxdigit`. -/
def isxdigit_c (c : Char) : Bool :=
  isdigit_c c || (97 ≤ c.toNat && c.toNat ≤ 102) || (65 ≤ c.toNat && c.toNat ≤ 70)

/-- Numeric value of an ASCII hex digit. -/
def hexdigit_val (c : Char) : Nat :=
  if isdigit_c c then c.toNat - 48
  else if 97 ≤ c.toNat && c.toNat ≤ 102 then c.toNat - 87
  else if 65 ≤ c.toNat && c.toNat ≤ 70 then c.toNat - 55
  else 0

/-- Value of the longest decimal-digit prefix of a character list, as an
unbounded natural number (the mathematical value `atoi`/`strtol` parse
before any clamping or truncation). -/
def dec_prefix_val : List Char → Nat → Nat
  | [], acc => acc
  | c :: r, acc => if isdigit_c c then dec_prefix_val r (acc * 10 + (c.toNat - 48)) else acc

/-- Value of the longest hex-digit prefix of a character list. -/
def hex_prefix_val : List Char → Nat → Nat
  | [], acc => acc
  | c :: r, acc => if isxdigit_c c then hex_prefix_val r (acc * 16 + hexdigit_val c) else acc

/-- Wrap an unbounded natural number to a two's-complement 32-bit C `int`
(the implementation-defined but universal wrap-around conversion). -/
def int32_of_nat (n : Nat) : Int :=
  let m := n % 4294967296
  if m < 2147483648 then (m : Int) else (m : Int) - 4294967296

/-- Embedding of C `atoi` on the digit-only / digit-prefixed strings the
program feeds it: glibc's `atoi` is `(int) strtol(s, 0, 10)`; `strtol`
clamps at `LONG_MAX` and the conversion to 32-bit `int` wraps. -/
def c_atoi (cs : List Char) : Int :=
  int32_of_nat (min (dec_prefix_val cs 0) 9223372036854775807)

/-- Embedding of `(int) strtoul(cs, NULL, 16)` as the program uses it on the
text after a `0x` marker: `strtoul` clamps at `ULONG_MAX`, the assignment
into the `int retval` wraps. -/
def c_strtoul16 (cs : List Char) : Int :=
  int32_of_nat (min (hex_prefix_val cs 0) 18446744073709551615)

/-- Embedding of `verify_int` (pigsty.c lines 540-551): every character a
decimal digit.  Note that the empty string vacuously satisfies the loop. -/
def verify_int (cs : List Char) : Bool := cs.all isdigit_c

/-- Embedding of `verify_hex` (pigsty.c lines 553-575): a literal `0x`
followed by at least one hex digit. -/
def verify_hex : List Char → Bool
  | '0' :: 'x' :: rest => !rest.isEmpty && rest.all isxdigit_c
  | _ => false

/-- The shared `retval` computation of the `verify_uN` family (pigsty.c
lines 414-492): hex literals go through `strtoul` base 16, decimal ones
through `atoi`, anything else leaves the sentinel `-1`. -/
def u_retval (cs : List Char) : Int :=
  if verify_hex cs then c_strtoul16 (cs.drop 2)
  else if verify_int cs then c_atoi cs
  else -1

/-- Embedding of `verify_u1` (pigsty.c lines 414-422). -/
def verify_u1 (cs : List Char) : Bool :=
  decide (u_retval cs = 0 ∨ u_retval cs = 1)

/-- Embedding of `verify_u3` (pigsty.c lines 424-432). -/
def verify_u3 (cs : List Char) : Bool :=
  decide (0 ≤ u_retval cs ∧ u_retval cs ≤ 7)

/-- Embedding of `verify_u4` (pigsty.c lines 434-442). -/
def verify_u4 (cs : List Char) : Bool :=
  decide (0 ≤ u_retval cs ∧ u_retval cs ≤ 15)

/-- Embedding of `verify_u6` (pigsty.c lines 444-452). -/
def verify_u6 (cs : List Char) : Bool :=
  decide (0 ≤ u_retval cs ∧ u_retval cs ≤ 63)

/-- Embedding of `verify_u8` (pigsty.c lines 454-462). -/
def verify_u8 (cs : List Char) : Bool :=
  decide (0 ≤ u_retval cs ∧ u_retval cs ≤ 255)

/-- Embedding of `verify_u13` (pigsty.c lines 464-472). -/
def verify_u13 (cs : List Char) : Bool :=
  decide (0 ≤ u_retval cs ∧ u_retval cs ≤ 8191)

/-- Embedding of `verify_u16` (pigsty.c lines 474-482). -/
def verify_u16 (cs : List Char) : Bool :=
  decide (0 ≤ u_retval cs ∧ u_retval cs ≤ 65535)

/-- Embedding of `verify_u32` (pigsty.c lines 484-492).  The C source reads
`retval >= 0x0 && retval <= 0xffffffff`, with `int retval`.  The literal
`0xffffffff` does not fit in `int`, so it has type `unsigned int` and the
second comparison converts `retval` to `unsigned int`, making it always
true; only `retval >= 0x0` (a signed comparison) remains.  The embedding
reproduces that semantics. -/
def verify_u32 (cs : List Char) : Bool :=
  decide (0 ≤ u_retval cs)

/-- Index of the first NUL in a character list, i.e. C `strlen` of the
buffer holding the list. -/
def strlen_c (cs : List Char) : Nat := (cs.takeWhile (fun c => !(c == NUL))).length

/-- Embedding of `verify_string` (pigsty.c lines 410-412): first character
is a double quote and the character before the terminator is one too
(the two coincide for a one-character string). -/
def verify_string (cs : List Char) : Bool :=
  chAt cs 0 == '"' && chAt cs (strlen_c cs - 1) == '"'

/-- The five fixed symbolic address tags of `verify_ipv4_addr`
(pigsty.c lines 500-504). -/
def ipv4_symbols : List (List Char) :=
  [lc ("north-american-ip"), lc ("south-american-ip"), lc ("asian-ip"),
   lc ("european-ip"), lc ("user-defined-ip")]

/-- One step of the character loop of `verify_ipv4_addr` (pigsty.c lines
508-526).  The state is the remaining input (the C pointer `b` as the
suffix it points to), the 255-byte `oct` scratch buffer, the write index
`o` and the dot counter.  The C sets `o = (size_t)-1` at a group boundary
and the loop footer computes `o = (o + 1) % sizeof(oct)`, which wraps to
`0`; the embedding performs that arithmetic directly.  A `retval = 0`
iteration makes the loop condition fail and the final
`return retval && dots_nr == 3` yield false, embedded as returning `false`
at once. -/
def ipv4_loop : List Char → List Char → Nat → Nat → Bool
  | [], _, _, dots => dots == 3
  | c :: rest, oct, o, dots =>
    if !(c == '.') && !(isdigit_c c) then false
    else if c == '.' || rest.isEmpty then
      let oct1 := if rest.isEmpty then oct.set o c else oct
      let dots1 := if c == '.' then dots + 1 else dots
      if decide (0 ≤ c_atoi oct1 ∧ c_atoi oct1 ≤ 255) then
        ipv4_loop rest (List.replicate 255 NUL) ((18446744073709551615 + 1) % 18446744073709551616 % 255) dots1
      else false
    else ipv4_loop rest (oct.set o c) ((o + 1) % 255) dots

/-- Embedding of `verify_ipv4_addr` (pigsty.c lines 494-528). -/
def verify_ipv4_addr (cs : List Char) : Bool :=
  if ipv4_symbols.any (fun t => t == cs) then true
  else ipv4_loop cs (List.replicate 255 NUL) 0 0

/-- Field indices of the `pig_field_t` enumeration.  Modelled from the spec:
the enumeration lives in a header that is not part of src/; the spec fixes
only that each field has a small stable integer index, and the code indexes
the 39-entry `field_map`/`present_fields` arrays with it, so the indices
are the catalog positions 0..38. -/
def kIpv4_version : Nat := 0

/-- Field index of `ip.ihl`. -/
def kIpv4_ihl : Nat := 1

/-- Field index of `ip.tos`. -/
def kIpv4_tos : Nat := 2

/-- Field index of `ip.tlen`. -/
def kIpv4_tlen : Nat := 3

/-- Field index of `ip.id`. -/
def kIpv4_id : Nat := 4

/-- Field index of `ip.flags`. -/
def kIpv4_flags : Nat := 5

/-- Field index of `ip.offset`. -/
def kIpv4_offset : Nat := 6

/-- Field index of `ip.ttl`. -/
def kIpv4_ttl : Nat := 7

/-- Field index of `ip.protocol`. -/
def kIpv4_protocol : Nat := 8

/-- Field index of `ip.checksum`. -/
def kIpv4_checksum : Nat := 9

/-- Field index of `ip.src`. -/
def kIpv4_src : Nat := 10

/-- Field index of `ip.dst`. -/
def kIpv4_dst : Nat := 11

/-- Field index of `ip.payload`. -/
def kIpv4_payload : Nat := 12

/-- Field index of `tcp.src`. -/
def kTcp_src : Nat := 13

/-- Field index of `tcp.dst`. -/
def kTcp_dst : Nat := 14

/-- Field index of `tcp.seqno`. -/
def kTcp_seq : Nat := 15

/-- Field index of `tcp.ackno`. -/
def kTcp_ackno : Nat := 16

/-- Field index of `tcp.size`. -/
def kTcp_size : Nat := 17

/-- Field index of `tcp.reserv`. -/
def kTcp_reserv : Nat := 18

/-- Field index of `tcp.urg`. -/
def kTcp_urg : Nat := 19

/-- Field index of `tcp.ack`. -/
def kTcp_ack : Nat := 20

/-- Field index of `tcp.psh`. -/
def kTcp_psh : Nat := 21

/-- Field index of `tcp.rst`. -/
def kTcp_rst : Nat := 22

/-- Field index of `tcp.syn`. -/
def kTcp_syn : Nat := 23

/-- Field index of `tcp.fin`. -/
def kTcp_fin : Nat := 24

/-- Field index of `tcp.wsize`. -/
def kTcp_wsize : Nat := 25

/-- Field index of `tcp.checksum`. -/
def kTcp_checksum : Nat := 26

/-- Field index of `tcp.urgp`. -/
def kTcp_urgp : Nat := 27

/-- Field index of `tcp.payload`. -/
def kTcp_payload : Nat := 28

/-- Field index of `udp.src`. -/
def kUdp_src : Nat := 29

/-- Field index of `udp.dst`. -/
def kUdp_dst : Nat := 30

/-- Field index of `udp.size`. -/
def kUdp_size : Nat := 31

/-- Field index of `udp.checksum`. -/
def kUdp_checksum : Nat := 32

/-- Field index of `udp.payload`. -/
def kUdp_payload : Nat := 33

/-- Field index of `icmp.type`. -/
def kIcmp_type : Nat := 34

/-- Field index of `icmp.code`. -/
def kIcmp_code : Nat := 35

/-- Field index of `icmp.checksum`. -/
def kIcmp_checksum : Nat := 36

/-- Field index of `icmp.payload`. -/
def kIcmp_payload : Nat := 37

/-- Field index of the synthetic `signature` field. -/
def kSignature : Nat := 38

/-- Embedding of `verify_ip_version` (pigsty.c lines 404-408).  `to_int`
is not part of src/; modelled from the spec: it decodes a decimal or
0x-hex literal to its numeric value (as a C int). -/
def to_int (cs : List Char) : Int :=
  if verify_hex cs then c_strtoul16 (cs.drop 2) else c_atoi cs

/-- Embedding of `verify_ip_version` (pigsty.c lines 404-408). -/
def verify_ip_version (cs : List Char) : Bool :=
  (verify_u3 cs || verify_u4 cs || verify_u8 cs || verify_u13 cs ||
   verify_u16 cs || verify_u32 cs) && to_int cs == 4

/-- One row of the `SIGNATURE_FIELDS` catalog (pigsty.c lines 33-37). -/
structure sig_field where
  label : List Char
  index : Nat
  verifier : List Char → Bool

/-- Embedding of the `SIGNATURE_FIELDS` table (pigsty.c lines 81-121).
Every row of the C table carries a non-NULL verifier. -/
def SIGNATURE_FIELDS : List sig_field :=
  [⟨lc ("ip.version"), kIpv4_version, verify_ip_version⟩,
   ⟨lc ("ip.ihl"), kIpv4_ihl, verify_u4⟩,
   ⟨lc ("ip.tos"), kIpv4_tos, verify_u8⟩,
   ⟨lc ("ip.tlen"), kIpv4_tlen, verify_u16⟩,
   ⟨lc ("ip.id"), kIpv4_id, verify_u16⟩,
   ⟨lc ("ip.flags"), kIpv4_flags, verify_u3⟩,
   ⟨lc ("ip.offset"), kIpv4_offset, verify_u13⟩,
   ⟨lc ("ip.ttl"), kIpv4_ttl, verify_u8⟩,
   ⟨lc ("ip.protocol"), kIpv4_protocol, verify_u8⟩,
   ⟨lc ("ip.checksum"), kIpv4_checksum, verify_u16⟩,
   ⟨lc ("ip.src"), kIpv4_src, verify_ipv4_addr⟩,
   ⟨lc ("ip.dst"), kIpv4_dst, verify_ipv4_addr⟩,
   ⟨lc ("ip.payload"), kIpv4_payload, verify_string⟩,
   ⟨lc ("tcp.src"), kTcp_src, verify_u16⟩,
   ⟨lc ("tcp.dst"), kTcp_dst, verify_u16⟩,
   ⟨lc ("tcp.seqno"), kTcp_seq, verify_u32⟩,
   ⟨lc ("tcp.ackno"), kTcp_ackno, verify_u32⟩,
   ⟨lc ("tcp.size"), kTcp_size, verify_u4⟩,
   ⟨lc ("tcp.reserv"), kTcp_reserv, verify_u6⟩,
   ⟨lc ("tcp.urg"), kTcp_urg, verify_u1⟩,
   ⟨lc ("tcp.ack"), kTcp_ack, verify_u1⟩,
   ⟨lc ("tcp.psh"), kTcp_psh, verify_u1⟩,
   ⟨lc ("tcp.rst"), kTcp_rst, verify_u1⟩,
   ⟨lc ("tcp.syn"), kTcp_syn, verify_u1⟩,
   ⟨lc ("tcp.fin"), kTcp_fin, verify_u1⟩,
   ⟨lc ("tcp.wsize"), kTcp_wsize, verify_u16⟩,
   ⟨lc ("tcp.checksum"), kTcp_checksum, verify_u16⟩,
   ⟨lc ("tcp.urgp"), kTcp_urgp, verify_u16⟩,
   ⟨lc ("tcp.payload"), kTcp_payload, verify_string⟩,
   ⟨lc ("udp.src"), kUdp_src, verify_u16⟩,
   ⟨lc ("udp.dst"), kUdp_dst, verify_u16⟩,
   ⟨lc ("udp.size"), kUdp_size, verify_u16⟩,
   ⟨lc ("udp.checksum"), kUdp_checksum, verify_u16⟩,
   ⟨lc ("udp.payload"), kUdp_payload, verify_string⟩,
   ⟨lc ("icmp.type"), kIcmp_type, verify_u8⟩,
   ⟨lc ("icmp.code"), kIcmp_code, verify_u8⟩,
   ⟨lc ("icmp.checksum"), kIcmp_checksum, verify_u16⟩,
   ⟨lc ("icmp.payload"), kIcmp_payload, verify_string⟩,
   ⟨lc ("signature"), kSignature, verify_string⟩]

/-- Embedding of `get_pigsty_field_index` (pigsty.c lines 530-538); the C
sentinel `-1` is modelled as `none`. -/
def get_pigsty_field_index (tok : List Char) : Option Nat :=
  (SIGNATURE_FIELDS.find? (fun f => f.label == tok)).map sig_field.index

/-- Verifier attached to catalog index `k` (the C expression
`SIGNATURE_FIELDS[field_index].verifier`). -/
def field_verifier (k : Nat) (tok : List Char) : Bool :=
  (SIGNATURE_FIELDS.getD k ⟨[], 0, fun _ => false⟩).verifier tok

/-- Fuel used by every loop wrapper: strictly more than the number of
iterations any embedded loop can perform on the buffer. -/
def bfuel (s : List Char) : Nat := s.length + 8

/-- Embedding of `skip_pigsty_comment` (pigsty.c lines 186-192): advance
to the next newline or terminator. -/
def skip_comment_f : Nat → List Char → Nat → Nat
  | 0, _, i => i
  | fuel + 1, s, i =>
    if chAt s i == '\n' || chAt s i == NUL then i else skip_comment_f fuel s (i + 1)

/-- Wrapper for `skip_pigsty_comment` with adequate fuel. -/
def skip_pigsty_comment (s : List Char) (i : Nat) : Nat := skip_comment_f (bfuel s) s i

/-- Embedding of `skip_pigsty_blank` (pigsty.c lines 194-201).  Note the
shape of the loop: the comment test is applied only to the character
reached after consuming a blank, so a `#` that is not preceded by a
consumed blank is not treated as a comment. -/
def skip_blank_f : Nat → List Char → Nat → Nat
  | 0, _, i => i
  | fuel + 1, s, i =>
    if is_pigsty_blank (chAt s i) then
      let j := i + 1
      let j1 := if is_pigsty_comment (chAt s j) then skip_pigsty_comment s j else j
      skip_blank_f fuel s j1
    else i

/-- Wrapper for `skip_pigsty_blank` with adequate fuel. -/
def skip_pigsty_blank (s : List Char) (i : Nat) : Nat := skip_blank_f (bfuel s) s i

/-- Embedding of the inner quoted-string loop of `get_next_pigsty_word`
(pigsty.c lines 212-217): `while (*e != '"' && *e != 0) { e++; if (*e ==
'\\') e += 2; }`.  The backslash test applies to the character reached
after the increment, not to the character just stepped over. -/
def quote_scan_f : Nat → List Char → Nat → Nat
  | 0, _, e => e
  | fuel + 1, s, e =>
    if !(chAt s e == '"') && !(chAt s e == NUL) then
      let e1 := e + 1
      let e2 := if chAt s e1 == '\\' then e1 + 2 else e1
      quote_scan_f fuel s e2
    else e

/-- Wrapper for the quoted-string scan with adequate fuel. -/
def quote_scan (s : List Char) (e : Nat) : Nat := quote_scan_f (bfuel s) s e

/-- Embedding of the word-extent loop of `get_next_pigsty_word` (pigsty.c
lines 209-226).  On meeting a `"` the quoted scan runs, the closing quote
is stepped over and the loop breaks; otherwise the cursor advances one
character and breaks when the next character is `=`, `,` or `]`. -/
def word_scan_f : Nat → List Char → Nat → Nat
  | 0, _, e => e
  | fuel + 1, s, e =>
    if !(is_pigsty_blank (chAt s e)) && !(chAt s e == NUL) then
      if chAt s e == '"' then quote_scan s (e + 1) + 1
      else
        let e1 := e + 1
        if chAt s e1 == '=' || chAt s e1 == ',' || chAt s e1 == ']' then e1
        else word_scan_f fuel s e1
    else e

/-- Wrapper for the word-extent scan with adequate fuel. -/
def word_scan (s : List Char) (e : Nat) : Nat := word_scan_f (bfuel s) s e

/-- The characters copied into a token: the half-open range of buffer
positions `[a, b)`, reads past the end yielding NUL (the C `memcpy` out
of the NUL-padded allocation). -/
def token_of (s : List Char) (a b : Nat) : List Char :=
  (List.range (b - a)).map (fun k => chAt s (a + k))

/-- Embedding of `get_next_pigsty_word` (pigsty.c lines 203-235): skip
blanks and comments, then either take a single structural character
(`=`, `,`, `[`) or scan a word; returns the token and the new cursor. -/
def get_next_pigsty_word (s : List Char) (i : Nat) : List Char × Nat :=
  let bp := skip_pigsty_blank s i
  let ebp :=
    if !(chAt s bp == '=') && !(chAt s bp == ',') && !(chAt s bp == '[') then
      word_scan s bp
    else bp + 1
  (token_of s bp ebp, ebp)

/-- First character of a token, the C expression `*token`. -/
def tok_head (tok : List Char) : Char := tok.headD NUL

/-- Syntax errors of the first pass, one per diagnostic site of
`compile_next_buffered_pigsty_entry` (pigsty.c lines 314-390). -/
inductive syn_error where
  | notWellOpened : syn_error
  | unknownField : List Char → syn_error
  | duplicateField : Nat → syn_error
  | expectedEquals : syn_error
  | invalidValue : Nat → List Char → syn_error
  | missingSeparator : syn_error
deriving DecidableEq, Repr

/-- Embedding of the 4-state token loop of
`compile_next_buffered_pigsty_entry` (pigsty.c lines 332-388).  The loop
processes the current token only while the character at the cursor is not
the terminator; a failing state returns the error, a successful state
falls through to the loop footer, which ends the entry when the token
starts with `]` and otherwise fetches the next token.  On success the
cursor position is returned (the C `*next`). -/
def compile_loop_f : Nat → List Char → List Char → Nat → Nat → List Bool → Nat →
    Except syn_error Nat
  | 0, _, _, j, _, _, _ => .ok j
  | fuel + 1, s, tok, j, state, fmap, fidx =>
    if chAt s j == NUL then .ok j
    else
      let next_step := fun (state1 : Nat) (fmap1 : List Bool) (fidx1 : Nat) =>
        if tok_head tok == ']' then Except.ok j
        else
          let w := get_next_pigsty_word s j
          compile_loop_f fuel s w.1 w.2 state1 fmap1 fidx1
      match state with
      | 0 =>
        match get_pigsty_field_index tok with
        | none => .error (.unknownField tok)
        | some k =>
          if fmap.getD k false then .error (.duplicateField k)
          else next_step 1 (fmap.set k true) k
      | 1 =>
        if tok == lc ("=") then next_step 2 fmap fidx else .error .expectedEquals
      | 2 =>
        if field_verifier fidx tok then next_step 3 fmap fidx
        else .error (.invalidValue fidx tok)
      | _ =>
        if tok_head tok == ',' || tok_head tok == ']' then next_step 0 fmap fidx
        else .error .missingSeparator

/-- Embedding of `compile_next_buffered_pigsty_entry` (pigsty.c lines
314-390): an empty token is end of document; otherwise the entry must
open with `[` and the state machine runs over its tokens. -/
def compile_next_buffered_pigsty_entry (s : List Char) (i : Nat) :
    Except syn_error Nat :=
  let w := get_next_pigsty_word s i
  if tok_head w.1 == NUL then .ok w.2
  else if !(tok_head w.1 == '[') then .error .notWellOpened
  else
    let w1 := get_next_pigsty_word s w.2
    compile_loop_f (bfuel s) s w1.1 w1.2 0 (List.replicate 39 false) 0

/-- Embedding of the entry loop of `compile_pigsty_buffer` (pigsty.c lines
392-402), keeping the error of the failing entry. -/
def compile_all_f : Nat → List Char → Nat → Except syn_error Nat
  | 0, _, i => .ok i
  | fuel + 1, s, i =>
    match compile_next_buffered_pigsty_entry s i with
    | .error e => .error e
    | .ok j => if chAt s j == NUL then .ok j else compile_all_f fuel s j

/-- Embedding of `compile_pigsty_buffer` (pigsty.c lines 392-402). -/
def compile_pigsty_buffer (s : List Char) : Bool :=
  (compile_all_f (bfuel s) s 0).toBool

/-- Encoded value of a field configuration.  Modelled from the spec: the
encoders `int_to_voidp`, `ipv4_to_voidp` and `str_to_voidp` live in
to_voidp.c, which is not part of src/; the spec fixes their observable
content (a decoded integer, four address octets or an unexpanded symbolic
tag, a string with the surrounding quotes stripped). -/
inductive c_val where
  | intv : Int → c_val
  | ipv4v : Nat → Nat → Nat → Nat → c_val
  | symv : List Char → c_val
  | strv : List Char → c_val
deriving DecidableEq, Repr

/-- One field configuration of an entry: `pigsty_conf_set_ctx` restricted
to its observable fields (field index, encoded data; a NULL data pointer
is `none`). -/
structure pigsty_conf where
  index : Nat
  data : Option c_val
deriving DecidableEq, Repr

/-- One signature entry: `pigsty_entry_ctx` restricted to its observable
fields. -/
structure pigsty_entry where
  signature_name : List Char
  conf : List pigsty_conf
deriving DecidableEq, Repr

/-- Modelled from the spec: `to_str` / `str_to_voidp` (to_str.c,
to_voidp.c, not part of src/) strip the surrounding quotes of a quoted
literal, leaving escapes untouched. -/
def to_str (cs : List Char) : List Char := (cs.drop 1).dropLast

/-- Groups of a character list between `.` separators. -/
def split_dots : List Char → List (List Char)
  | [] => [[]]
  | c :: rest =>
    if c == '.' then [] :: split_dots rest
    else
      match split_dots rest with
      | g :: gs => (c :: g) :: gs
      | [] => [[c]]

/-- Modelled from the spec: `ipv4_to_voidp` (to_voidp.c, not part of
src/) expands a dotted quad into its four octets and keeps a symbolic
tag as an opaque unexpanded literal. -/
def ipv4_to_val (cs : List Char) : c_val :=
  if ipv4_symbols.any (fun t => t == cs) then .symv cs
  else
    match split_dots cs with
    | [a, b, c, d] =>
      .ipv4v (dec_prefix_val a 0) (dec_prefix_val b 0) (dec_prefix_val c 0) (dec_prefix_val d 0)
    | _ => .symv cs

/-- The value classification of the Semantic Builder (pigsty.c lines
286-292): integer or hex first, then IPv4, then string; an unclassifiable
token leaves the NULL pointer. -/
def encode_value (data : List Char) : Option c_val :=
  if verify_int data || verify_hex data then some (.intv (to_int data))
  else if verify_ipv4_addr data then some (ipv4_to_val data)
  else if verify_string data then some (.strv (to_str data))
  else none

/-- Modelled from the spec: `get_pigsty_entry_signature_name` (lists.c,
not part of src/) looks an entry up by name. -/
def has_entry_name (name : List Char) (es : List pigsty_entry) : Bool :=
  es.any (fun e => e.signature_name == name)

/-- Result of the signature-seeking loop of
`mk_pigsty_entry_from_compiled_buffer` (pigsty.c lines 248-269): the name
and cursor on success, the cursor at which the scan ran out of input, or
a redeclared name. -/
inductive sig_scan_res where
  | found : List Char → Nat → sig_scan_res
  | notFound : Nat → sig_scan_res
  | redecl : List Char → Nat → sig_scan_res
deriving DecidableEq, Repr

/-- Embedding of the signature-seeking loop (pigsty.c lines 248-269): walk
the tokens while input remains; on the literal token `signature`, skip
the `=` token, take the next token as the quoted name (quotes stripped by
`to_str`) and test it against the store built so far. -/
def sig_scan_f : Nat → List Char → List pigsty_entry → List Char → Nat → sig_scan_res
  | 0, _, _, _, j => .notFound j
  | fuel + 1, s, es, tok, j =>
    if chAt s j == NUL then .notFound j
    else if tok == lc ("signature") then
      let w1 := get_next_pigsty_word s j
      let w2 := get_next_pigsty_word s w1.2
      let name := to_str w2.1
      if has_entry_name name es then .redecl name w2.2 else .found name w2.2
    else
      let w := get_next_pigsty_word s j
      sig_scan_f fuel s es w.1 w.2

/-- Embedding of the configuration-collecting loop (pigsty.c lines
276-306): walk the tokens while input remains; a token that is a catalog
label other than `signature` consumes its `=` and value tokens and
appends a configuration (`add_conf_to_pigsty_conf_set` appends, modelled
from the spec); the loop footer fetches the next token and breaks when it
starts with `]`. -/
def conf_scan_f : Nat → List Char → List Char → Nat → List pigsty_conf →
    List pigsty_conf × Nat
  | 0, _, _, j, confs => (confs, j)
  | fuel + 1, s, tok, j, confs =>
    if chAt s j == NUL then (confs, j)
    else
      let step : List pigsty_conf × Nat :=
        match get_pigsty_field_index tok with
        | some k =>
          if !(k == kSignature) then
            let weq := get_next_pigsty_word s j
            let wdata := get_next_pigsty_word s weq.2
            (confs ++ [⟨k, encode_value wdata.1⟩], wdata.2)
          else (confs, j)
        | none => (confs, j)
      let w := get_next_pigsty_word s step.2
      if tok_head w.1 == ']' then (step.1, w.2)
      else conf_scan_f fuel s w.1 w.2 step.1

/-- Embedding of `mk_pigsty_entry_from_compiled_buffer` (pigsty.c lines
237-312).  On a redeclared name the whole store is torn down (`none`).
When no `signature` field is found before the input runs out the C code
prints a PANIC diagnostic but returns the store unchanged.  On success
the new entry is appended (`add_signature_to_pigsty_entry` appends and
`get_pigsty_entry_tail` addresses the new tail, modelled from the spec)
and its configurations are collected by a second scan from the block
start. -/
def mk_pigsty_entry_from_compiled_buffer (es : List pigsty_entry)
    (s : List Char) (i : Nat) : Option (List pigsty_entry) × Nat :=
  let w := get_next_pigsty_word s i
  match sig_scan_f (bfuel s) s es w.1 w.2 with
  | .redecl _ j => (none, j)
  | .notFound j => (some es, j)
  | .found name _ =>
    let w0 := get_next_pigsty_word s i
    let cc := conf_scan_f (bfuel s) s w0.1 w0.2 []
    (some (es ++ [⟨name, cc.1⟩]), cc.2)

/-- Embedding of the entry loop of `make_pigsty_data_from_loaded_data`
(pigsty.c lines 148-157). -/
def make_all_f : Nat → List Char → Nat → List pigsty_entry → Option (List pigsty_entry)
  | 0, _, _, es => some es
  | fuel + 1, s, i, es =>
    match mk_pigsty_entry_from_compiled_buffer es s i with
    | (none, _) => none
    | (some es1, j) => if chAt s j == NUL then some es1 else make_all_f fuel s j es1

/-- Embedding of `make_pigsty_data_from_loaded_data` (pigsty.c lines
148-157), starting from the caller's empty store. -/
def make_pigsty_data_from_loaded_data (s : List Char) : Option (List pigsty_entry) :=
  make_all_f (bfuel s) s 0 []

/-- Failure cases of the required-field validator, one per diagnostic
site of `verify_required_fields` (pigsty.c lines 614-702). -/
inductive req_error where
  | missingIPVersion : req_error
  | unsupportedIPVersion : req_error
  | missingRequiredField : req_error
  | transportWithoutProtocol : req_error
deriving DecidableEq, Repr

/-- The C expression `*(int *) cp->field->data`: the first four bytes of
the encoded value reinterpreted as a little-endian 32-bit int. -/
def c_int_read : c_val → Int
  | .intv v => v
  | .ipv4v a b c d => int32_of_nat (a % 256 + 256 * (b % 256) + 65536 * (c % 256) + 16777216 * (d % 256))
  | .symv cs => int32_of_nat (chAt cs 0).toNat
  | .strv cs => int32_of_nat (chAt cs 0).toNat

/-- Embedding of the `ip_version` scan (pigsty.c lines 622-627): the loop
keeps assigning `*(int *) data` of `ip.version` configurations while the
accumulator is still zero, so the result is the first nonzero such value,
or `0` when there is none. -/
def ip_version_of : List pigsty_conf → Int
  | [] => 0
  | c :: r =>
    if c.index == kIpv4_version && c.data.isSome then
      let v := c_int_read (c.data.getD (.intv 0))
      if v == 0 then ip_version_of r else v
    else ip_version_of r

/-- Embedding of the `transport_layer` scan (pigsty.c lines 652-657):
first value of an `ip.protocol` configuration different from the
sentinel `-1`, or `-1`. -/
def transport_layer_of : List pigsty_conf → Int
  | [] => -1
  | c :: r =>
    if c.index == kIpv4_protocol && c.data.isSome then
      let v := c_int_read (c.data.getD (.intv 0))
      if v == -1 then transport_layer_of r else v
    else transport_layer_of r

/-- Embedding of `verify_required_datagram_fields` (pigsty.c lines
577-593): every listed field index occurs among the configurations. -/
def verify_required_datagram_fields (set : List pigsty_conf) (fields : List Nat) : Bool :=
  fields.all (fun k => set.any (fun c => c.index == k))

/-- Embedding of `verify_required_fields_ipv4` (pigsty.c lines 595-598). -/
def verify_required_fields_ipv4 (set : List pigsty_conf) : Bool :=
  verify_required_datagram_fields set [kIpv4_src, kIpv4_dst, kIpv4_protocol]

/-- The transport-layer field indices tested by the scan at pigsty.c lines
668-694 (the C source lists `kUdp_src` twice; the duplicate is harmless). -/
def transport_indices : List Nat :=
  [kTcp_src, kTcp_dst, kTcp_seq, kTcp_ackno, kTcp_size, kTcp_reserv, kTcp_urg,
   kTcp_ack, kTcp_psh, kTcp_rst, kTcp_syn, kTcp_fin, kTcp_wsize, kTcp_checksum,
   kTcp_urgp, kTcp_payload, kUdp_src, kUdp_dst, kUdp_size, kUdp_checksum,
   kUdp_payload, kUdp_src, kIcmp_type, kIcmp_code, kIcmp_checksum, kIcmp_payload]

/-- The per-entry body of `verify_required_fields` (pigsty.c lines
620-700), with the diagnostic site reached on failure.  Version `0`
(no usable `ip.version` configuration) is the missing-version PANIC; a
version other than 4 falls into the switch default; for version 4 the
IPv4 required fields are checked; then a declared protocol (any value
`> -1`) is accepted by the empty switch, while an absent protocol
forbids every transport-layer field. -/
def check_required_entry (e : pigsty_entry) : Except req_error Unit :=
  let ipv := ip_version_of e.conf
  if ipv == 0 then .error .missingIPVersion
  else if !(ipv == 4) then .error .unsupportedIPVersion
  else if !(verify_required_fields_ipv4 e.conf) then .error .missingRequiredField
  else
    let tl := transport_layer_of e.conf
    if -1 < tl then .ok ()
    else if e.conf.all (fun c => !(transport_indices.contains c.index)) then .ok ()
    else .error .transportWithoutProtocol

/-- Embedding of `verify_required_fields` (pigsty.c lines 614-702): the
entry loop carries `retval` and stops on the first failure, which is the
conjunction over all entries. -/
def verify_required_fields (es : List pigsty_entry) : Bool :=
  es.all (fun e => (check_required_entry e).toBool)

/-- The store as built after the two compiler passes and before the
required-field validation (`none` when pass 1 or the builder failed). -/
def built_store (s : List Char) : Option (List pigsty_entry) :=
  if compile_pigsty_buffer s then make_pigsty_data_from_loaded_data s else none

/-- Embedding of `load_pigsty_data_from_file` (pigsty.c lines 125-146) on
an already-read buffer (the file I/O of `get_pigsty_file_data` is outside
the compiler): pass 1 aborts the load; the builder's result, when NULL,
passes vacuously through `verify_required_fields`; a required-field
failure tears the store down. -/
def load_pigsty_data (s : List Char) : Option (List pigsty_entry) :=
  if compile_pigsty_buffer s then
    match make_pigsty_data_from_loaded_data s with
    | none => none
    | some es => if verify_required_fields es then some es else none
  else none

/-- Names of the entries of a store, in store order. -/
def store_names (es : List pigsty_entry) : List (List Char) :=
  es.map pigsty_entry.signature_name

/-- Field indices of the configurations of an entry, in declaration order. -/
def conf_indices (e : pigsty_entry) : List Nat :=
  e.conf.map pigsty_conf.index

/-- Length of a quoted-string body according to the claim's reading of the
tokenizer (a refinement model built from the spec's words, for comparison
with the embedded scan): scanning after the opening quote, every backslash
makes the immediately following character be skipped uninterpreted, and
the first quote not so skipped closes the string. -/
def claim_quote_scan : List Char → Nat
  | [] => 0
  | c :: rest =>
    if c == '"' || c == NUL then 0
    else if c == '\\' then
      match rest with
      | [] => 2
      | _ :: rest1 => 2 + claim_quote_scan rest1
    else 1 + claim_quote_scan rest

/-- The quoted token the claim predicts at cursor `i` (both quotes
included). -/
def claim_quoted_token (s : List Char) (i : Nat) : List Char :=
  let b := skip_pigsty_blank s i
  token_of s b (b + 2 + claim_quote_scan (s.drop (b + 1)))

/-- Length of a quoted-string body as the embedded scan actually walks it:
from an examined position, a non-quote character is stepped over, and only
a backslash reached by that single step swallows itself and the following
character; a backslash sitting at an examined position is an ordinary
character. -/
def quote_spec_scan : List Char → Nat
  | [] => 0
  | [c] => if c == '"' || c == NUL then 0 else 1
  | c :: '\\' :: rest1 =>
    if c == '"' || c == NUL then 0
    else
      match rest1 with
      | [] => 3
      | _ :: rest2 => 3 + quote_spec_scan rest2
  | c :: d :: rest =>
    if c == '"' || c == NUL then 0
    else 1 + quote_spec_scan (d :: rest)

/-- The IPv4 classifier as the claim states it (a refinement model built
from the claim's words): one of the five tags verbatim, or exactly 4
dot-separated groups, each a nonempty digit string with value at most
255. -/
def claim_ipv4_ok (cs : List Char) : Bool :=
  ipv4_symbols.any (fun t => t == cs) ||
  ((split_dots cs).length == 4 &&
   (split_dots cs).all (fun g => !g.isEmpty && g.all isdigit_c && decide (dec_prefix_val g 0 ≤ 255)))

/-- The IPv4 classifier as the code actually decides it on tokens whose
groups stay clear of the 255-byte scratch buffer and of `int` overflow:
one of the five tags, or a string of digits and dots with exactly three
dots in which every dot-separated group has decimal value at most 255, an
empty group counting as value 0. -/
def amended_ipv4_ok (cs : List Char) : Bool :=
  ipv4_symbols.any (fun t => t == cs) ||
  (cs.all (fun c => isdigit_c c || c == '.') && cs.count '.' == 3 &&
   (split_dots cs).all (fun g => decide (dec_prefix_val g 0 ≤ 255)))

/-- The `oct` scratch buffer of `verify_ipv4_addr` holding the partial
group `g`: `g` written at the front, NUL elsewhere. -/
def oct_of (g : List Char) : List Char := g ++ List.replicate (255 - g.length) NUL

/-- Group-accumulator form of the `verify_ipv4_addr` character loop, the
`oct`/`o` pair abstracted to the partial group it spells. -/
def ipv4_spec_loop : List Char → List Char → Nat → Bool
  | [], _, dots => dots == 3
  | c :: rest, g, dots =>
    if !(c == '.') && !(isdigit_c c) then false
    else if c == '.' || rest.isEmpty then
      let g1 := if rest.isEmpty then g ++ [c] else g
      let dots1 := if c == '.' then dots + 1 else dots
      if decide (0 ≤ c_atoi g1 ∧ c_atoi g1 ≤ 255) then ipv4_spec_loop rest [] dots1
      else false
    else ipv4_spec_loop rest (g ++ [c]) dots

/-- Document with a complete first entry and a second entry block that
declares no `signature` field. -/
def doc_c1 : List Char :=
  lc ("[signature=\"a\",ip.version=4,ip.src=1.2.3.4,ip.dst=1.2.3.4,ip.protocol=6] [ip.version=4,ip.src=1.2.3.4,ip.dst=1.2.3.4,ip.protocol=6]")

/-- The entry built from the first block of `doc_c1`. -/
def entry_a : pigsty_entry :=
  ⟨lc ("a"),
   [⟨kIpv4_version, some (.intv 4)⟩, ⟨kIpv4_src, some (.ipv4v 1 2 3 4)⟩,
    ⟨kIpv4_dst, some (.ipv4v 1 2 3 4)⟩, ⟨kIpv4_protocol, some (.intv 6)⟩]⟩

/-- Document whose only entry declares a TCP field and `ip.protocol` but
none of the other IPv4 fields. -/
def doc_c2 : List Char := lc ("[signature=\"a\",tcp.src=80,ip.protocol=6]")

/-- The entry built from `doc_c2`. -/
def entry_c2 : pigsty_entry :=
  ⟨lc ("a"), [⟨kTcp_src, some (.intv 80)⟩, ⟨kIpv4_protocol, some (.intv 6)⟩]⟩

/-- Document with a complete first entry and a second entry that declares
every IPv4 required field but no `ip.version`. -/
def doc_c4 : List Char :=
  lc ("[signature=\"a\",ip.version=4,ip.src=1.2.3.4,ip.dst=1.2.3.4,ip.protocol=6] [signature=\"b\",ip.src=1.2.3.4,ip.dst=1.2.3.4,ip.protocol=6]")

/-- The second entry built from `doc_c4`, with no `ip.version`
configuration. -/
def entry_b_c4 : pigsty_entry :=
  ⟨lc ("b"),
   [⟨kIpv4_src, some (.ipv4v 1 2 3 4)⟩, ⟨kIpv4_dst, some (.ipv4v 1 2 3 4)⟩,
    ⟨kIpv4_protocol, some (.intv 6)⟩]⟩

/-- Document declaring the same signature name in two entries. -/
def doc_c5 : List Char :=
  lc ("[signature=\"a\",ip.version=4,ip.src=1.2.3.4,ip.dst=1.2.3.4,ip.protocol=6] [signature=\"a\",ip.version=4,ip.src=1.2.3.4,ip.dst=1.2.3.4,ip.protocol=6]")

/-- Document repeating the field label `ip.ttl` inside one entry block. -/
def doc_c9 : List Char := lc ("[signature=\"a\",ip.ttl=1,ip.ttl=2]")

/-- A well-formed single-entry document. -/
def doc_good : List Char :=
  lc ("[signature=\"t\",ip.version=4,ip.src=10.0.0.1,ip.dst=10.0.0.2,ip.protocol=6]")

/-- The entry built from `doc_good`. -/
def entry_t : pigsty_entry :=
  ⟨lc ("t"),
   [⟨kIpv4_version, some (.intv 4)⟩, ⟨kIpv4_src, some (.ipv4v 10 0 0 1)⟩,
    ⟨kIpv4_dst, some (.ipv4v 10 0 0 2)⟩, ⟨kIpv4_protocol, some (.intv 6)⟩]⟩

/-- The dot-separated groups still to be checked by the IPv4 loop when the
partial group `g` has been accumulated and `r` remains: `g` extends the
first group of `r`. -/
def mod_groups (g : List Char) (r : List Char) : List (List Char) :=
  match split_dots r with
  | g0 :: gs => (g ++ g0) :: gs
  | [] => [g]

/-!
Helper lemmas about the embedded tokenizer: cursors never move backwards,
a cursor standing on a non-terminator character strictly advances, and
blank-skipping never stops on a blank when given adequate fuel.
-/

theorem chAt_eq_nul_of_le (s : List Char) (i : Nat) (h : s.length ≤ i) :
    chAt s i = NUL := by
  simp [chAt, List.getD, List.getElem?_eq_none h]

theorem lt_length_of_chAt_ne_nul {s : List Char} {i : Nat} (h : chAt s i ≠ NUL) :
    i < s.length := by
  by_contra hc
  exact h (chAt_eq_nul_of_le s i (Nat.le_of_not_lt hc))

theorem skip_comment_f_ge (s : List Char) : ∀ fuel i, i ≤ skip_comment_f fuel s i := by
  intro fuel
  induction fuel with
  | zero => intro i; simp [skip_comment_f]
  | succ n ih =>
    intro i
    simp only [skip_comment_f]
    split
    · exact Nat.le_refl i
    · exact Nat.le_trans (Nat.le_succ i) (ih (i + 1))

theorem skip_pigsty_comment_ge (s : List Char) (i : Nat) :
    i ≤ skip_pigsty_comment s i := skip_comment_f_ge s (bfuel s) i

theorem skip_blank_f_ge (s : List Char) : ∀ fuel i, i ≤ skip_blank_f fuel s i := by
  intro fuel
  induction fuel with
  | zero => intro i; simp [skip_blank_f]
  | succ n ih =>
    intro i
    simp only [skip_blank_f]
    split
    · refine Nat.le_trans ?_ (ih _)
      split
      · exact Nat.le_trans (Nat.le_succ i) (skip_pigsty_comment_ge s (i + 1))
      · exact Nat.le_succ i
    · exact Nat.le_refl i

theorem skip_pigsty_blank_ge (s : List Char) (i : Nat) :
    i ≤ skip_pigsty_blank s i := skip_blank_f_ge s (bfuel s) i

theorem quote_scan_f_ge (s : List Char) : ∀ fuel e, e ≤ quote_scan_f fuel s e := by
  intro fuel
  induction fuel with
  | zero => intro e; simp [quote_scan_f]
  | succ n ih =>
    intro e
    simp only [quote_scan_f]
    split
    · split
      · exact Nat.le_trans (by omega) (ih (e + 1 + 2))
      · exact Nat.le_trans (Nat.le_succ e) (ih (e + 1))
    · exact Nat.le_refl e

theorem quote_scan_ge (s : List Char) (e : Nat) : e ≤ quote_scan s e :=
  quote_scan_f_ge s (bfuel s) e

theorem word_scan_f_ge (s : List Char) : ∀ fuel e, e ≤ word_scan_f fuel s e := by
  intro fuel
  induction fuel with
  | zero => intro e; simp [word_scan_f]
  | succ n ih =>
    intro e
    simp only [word_scan_f]
    split
    · split
      · exact Nat.le_trans (Nat.le_succ e) (by have := quote_scan_ge s (e + 1); omega)
      · split
        · exact Nat.le_succ e
        · exact Nat.le_trans (Nat.le_succ e) (ih (e + 1))
    · exact Nat.le_refl e

theorem word_scan_ge (s : List Char) (e : Nat) : e ≤ word_scan s e :=
  word_scan_f_ge s (bfuel s) e

theorem get_next_pigsty_word_ge (s : List Char) (i : Nat) :
    i ≤ (get_next_pigsty_word s i).2 := by
  have h1 := skip_pigsty_blank_ge s i
  simp only [get_next_pigsty_word]
  split
  · exact Nat.le_trans h1 (word_scan_ge s _)
  · omega

theorem skip_pigsty_blank_unfold (s : List Char) (i : Nat) :
    skip_pigsty_blank s i =
      if is_pigsty_blank (chAt s i) then
        skip_blank_f (s.length + 7) s
          (if is_pigsty_comment (chAt s (i + 1)) then skip_pigsty_comment s (i + 1) else i + 1)
      else i := rfl

theorem word_scan_unfold (s : List Char) (e : Nat) :
    word_scan s e =
      if !(is_pigsty_blank (chAt s e)) && !(chAt s e == NUL) then
        if chAt s e == '"' then quote_scan s (e + 1) + 1
        else
          if chAt s (e + 1) == '=' || chAt s (e + 1) == ',' || chAt s (e + 1) == ']' then e + 1
          else word_scan_f (s.length + 7) s (e + 1)
      else e := rfl

theorem skip_blank_f_not_blank (s : List Char) :
    ∀ fuel i, s.length + 1 ≤ fuel + i →
      is_pigsty_blank (chAt s (skip_blank_f fuel s i)) = false := by
  intro fuel
  induction fuel with
  | zero =>
    intro i h
    have : chAt s i = NUL := chAt_eq_nul_of_le s i (by omega)
    simp [skip_blank_f, this, is_pigsty_blank, NUL]
  | succ n ih =>
    intro i h
    simp only [skip_blank_f]
    split
    · refine ih _ ?_
      have h1 : i + 1 ≤ if is_pigsty_comment (chAt s (i + 1)) then skip_pigsty_comment s (i + 1) else i + 1 := by
        split
        · exact skip_pigsty_comment_ge s (i + 1)
        · exact Nat.le_refl _
      omega
    · rename_i hnb
      exact Bool.not_eq_true _ ▸ (by simpa using hnb)

theorem skip_pigsty_blank_not_blank (s : List Char) (i : Nat) :
    is_pigsty_blank (chAt s (skip_pigsty_blank s i)) = false :=
  skip_blank_f_not_blank s (bfuel s) i (by simp [bfuel]; omega)

theorem token_of_head {s : List Char} {a b : Nat} (h : a < b) :
    token_of s a b ≠ [] ∧ tok_head (token_of s a b) = chAt s a := by
  obtain ⟨n, hn⟩ : ∃ n, b - a = n + 1 := ⟨b - a - 1, by omega⟩
  simp [token_of, hn, tok_head, List.range_succ_eq_map]

theorem skip_blank_f_stable (s : List Char) :
    ∀ fuel i, s.length ≤ fuel + i →
      skip_blank_f (fuel + 1) s i = skip_blank_f fuel s i := by
  intro fuel
  induction fuel with
  | zero =>
    intro i h
    have hn : chAt s i = NUL := chAt_eq_nul_of_le s i (by omega)
    simp [skip_blank_f, hn, is_pigsty_blank, NUL]
  | succ n ih =>
    intro i h
    simp only [skip_blank_f]
    split
    · apply ih
      have h1 : i + 1 ≤ if is_pigsty_comment (chAt s (i + 1)) then skip_pigsty_comment s (i + 1) else i + 1 := by
        split
        · exact skip_pigsty_comment_ge s (i + 1)
        · exact Nat.le_refl _
      omega
    · rfl

/-- Claim C1, code-bug evidence.  `doc_c1` is a document whose first entry
block is complete and whose second entry block contains no field named
`signature`.  The claim (and the spec) say the load must fail with
`SemanticError::MissingSignatureField`, discarding every entry built from
earlier blocks so that the caller observes no result.  The code instead
prints its PANIC diagnostic and returns the store built so far: the load
succeeds and the caller receives the entry of the first block.  Every
other PANIC site in pigsty.c (`mk_pigsty_entry_from_compiled_buffer`
lines 256-262, `load_pigsty_data_from_file` lines 128-139) tears the load
down; the `return entries` after the missing-signature diagnostic at line
309 is the one PANIC that does not, contradicting the program's own
diagnostic convention. -/
theorem c1_missing_signature_not_fatal :
    load_pigsty_data doc_c1 = some [entry_a] := by decide

/-- Claim C3, code-bug evidence.  The claim says the u32 validator accepts
every hex or decimal literal with value up to 2^32 - 1 exactly, without
silent overflow.  The token `0xffffffff` is a hexadecimal literal of value
4294967295 = 2^32 - 1, yet `verify_u32` rejects it: the C code parses it
with `strtoul` into an `int retval`, which wraps to -1, and `retval >= 0x0`
fails.  The same happens to the decimal literal `4294967295`.  The
comparison `retval <= 0xffffffff` in the source shows the intended upper
bound, so the claim (and spec) state the intent and the `int`-width
`retval` is the slip.  Values below 2^31 are still accepted. -/
theorem c3_u32_overflow :
    verify_hex (lc ("0xffffffff")) = true ∧
    hex_prefix_val (lc ("ffffffff")) 0 = 4294967295 ∧
    verify_u32 (lc ("0xffffffff")) = false ∧
    verify_int (lc ("4294967295")) = true ∧
    dec_prefix_val (lc ("4294967295")) 0 = 4294967295 ∧
    verify_u32 (lc ("4294967295")) = false ∧
    verify_u32 (lc ("0x7fffffff")) = true ∧
    verify_u32 (lc ("2147483647")) = true := by decide

/-- Claim C2, counterexample.  The claim says an entry containing a TCP
field configuration but no `ip.protocol` fails required-field validation
while the identical entry with `ip.protocol` additionally declared passes
regardless of its value.  `doc_c2` builds exactly such an entry, with
`tcp.src` and `ip.protocol` both declared, and it still fails
required-field validation (no `ip.version`, no `ip.src`, no `ip.dst`), so
the load returns nothing. -/
theorem c2_counterexample :
    built_store doc_c2 = some [entry_c2] ∧
    entry_c2.conf.any (fun c => transport_indices.contains c.index) = true ∧
    entry_c2.conf.any (fun c => c.index == kIpv4_protocol) = true ∧
    verify_required_fields [entry_c2] = false ∧
    load_pigsty_data doc_c2 = none := by decide

/-- Claim C7, counterexample.  The claim says the IPv4 classifier accepts
only the five tags or exactly 4 dot-separated groups each parsing as an
integer in [0,255].  The token `1.2.3.` has an empty final group, which
does not parse as an integer, yet `verify_ipv4_addr` accepts it: the code
counts exactly three dots and `atoi` turns the empty group into 0. -/
theorem c7_counterexample :
    verify_ipv4_addr (lc ("1.2.3.")) = true ∧
    claim_ipv4_ok (lc ("1.2.3.")) = false := by decide

/-- Claim C8, counterexample.  The claim says the quoted-string classifier
requires length at least 2 and in particular rejects a lone `"`.  The code
tests `buffer[0] == dquote and buffer[strlen-1] == dquote`, and for the
one-character token both tests inspect the same character: the lone `"`
is accepted. -/
theorem c8_counterexample :
    verify_string (lc ("\"")) = true ∧ (lc ("\"")).length = 1 := by decide

/-- Claim C6, counterexample.  The claim says every backslash inside the
quotes escapes the immediately following character, including an escaped
quote as the first character after the opening quote.  On the buffer
holding `"\"a"` the claim therefore predicts the whole 5-character text as
one token; the embedded tokenizer instead stops at the escaped quote and
returns the 3-character token `"\` + quote: the scan only honours a
backslash reached by its post-increment step, and a backslash standing
immediately after the opening quote is stepped over as an ordinary
character. -/
theorem c6_counterexample :
    (get_next_pigsty_word (lc ("\"\\\"a\"")) 0).1 = lc ("\"\\\"") ∧
    claim_quoted_token (lc ("\"\\\"a\"")) 0 = lc ("\"\\\"a\"") ∧
    ¬ (get_next_pigsty_word (lc ("\"\\\"a\"")) 0).1
        = claim_quoted_token (lc ("\"\\\"a\"")) 0 := by decide

theorem get_next_pigsty_word_gt {s : List Char} {i : Nat} (h : chAt s i ≠ NUL) :
    i < (get_next_pigsty_word s i).2 := by
  simp only [get_next_pigsty_word]
  rcases hb : is_pigsty_blank (chAt s i) with _ | _
  · -- the cursor is not on a blank, so blank-skipping stays put
    have hbp : skip_pigsty_blank s i = i := by
      rw [skip_pigsty_blank_unfold, hb]
      simp
    rw [hbp]
    split
    · -- word scan from a non-blank, non-NUL character advances
      rw [word_scan_unfold]
      have hcond : (!(is_pigsty_blank (chAt s i)) && !(chAt s i == NUL)) = true := by
        simp [hb, h]
      rw [hcond]
      simp only [if_true]
      split
      · have := quote_scan_ge s (i + 1); omega
      · split
        · omega
        · have := word_scan_f_ge s (s.length + 7) (i + 1); omega
    · omega
  · -- the cursor is on a blank: one skipping step already advances
    have hbp : i + 1 ≤ skip_pigsty_blank s i := by
      rw [skip_pigsty_blank_unfold, hb]
      simp only [if_true]
      refine Nat.le_trans ?_ (skip_blank_f_ge s (s.length + 7) _)
      split
      · exact skip_pigsty_comment_ge s (i + 1)
      · exact Nat.le_refl _
    have h2 : skip_pigsty_blank s i ≤ (get_next_pigsty_word s i).2 := by
      simp only [get_next_pigsty_word]
      split
      · exact word_scan_ge s _
      · omega
    simp only [get_next_pigsty_word] at h2
    omega

/-- Claim C10: the tokenizer treats `#` as the start of a skipped line
comment only when the `#` immediately follows a whitespace character
consumed during blank-skipping.  A `#` standing at the cursor itself —
at the very start of the buffer, or immediately after a token with no
intervening whitespace — is not skipped: blank-skipping leaves the cursor
in place and the next token is a nonempty word beginning with that `#`.
A `#` immediately after a consumed blank is skipped to the end of its
line before blank-skipping resumes. -/
theorem c10_hash_comment_only_after_blank :
    (∀ (s : List Char) (i : Nat), chAt s i = '#' →
      skip_pigsty_blank s i = i ∧
      (get_next_pigsty_word s i).1 ≠ [] ∧
      tok_head (get_next_pigsty_word s i).1 = '#') ∧
    (∀ (s : List Char) (i : Nat), is_pigsty_blank (chAt s i) = true →
      chAt s (i + 1) = '#' →
      skip_pigsty_blank s i =
        skip_pigsty_blank s (skip_pigsty_comment s (i + 1))) := by
  constructor
  · intro s i h
    have hnb : is_pigsty_blank (chAt s i) = false := by
      rw [h]; decide
    have hbp : skip_pigsty_blank s i = i := by
      rw [skip_pigsty_blank_unfold, hnb]
      simp
    refine ⟨hbp, ?_⟩
    have hnn : chAt s i ≠ NUL := by rw [h]; decide
    have hcond : (!(chAt s i == '=') && !(chAt s i == ',') && !(chAt s i == '[')) = true := by
      rw [h]; decide
    have hadv : i < (get_next_pigsty_word s i).2 := get_next_pigsty_word_gt hnn
    have htok : (get_next_pigsty_word s i).1 = token_of s i (get_next_pigsty_word s i).2 := by
      simp only [get_next_pigsty_word, hbp, hcond, if_true]
    have hh := token_of_head (s := s) hadv
    rw [htok, h] at *
    exact ⟨hh.1, by rw [hh.2, h]⟩
  · intro s i hb hc
    rw [skip_pigsty_blank_unfold, hb]
    have hcm : is_pigsty_comment (chAt s (i + 1)) = true := by
      rw [hc]; decide
    rw [hcm]
    simp only [if_true]
    have hst := skip_blank_f_stable s (s.length + 7) (skip_pigsty_comment s (i + 1)) (by omega)
    rw [skip_pigsty_blank, show bfuel s = s.length + 7 + 1 from rfl]
    exact hst.symm

/-- Witness for claim C10 at concrete buffers: a `#` at the start of the
buffer is tokenized as a word, and a `#` after a blank is skipped as a
comment. -/
theorem c10_witness :
    (skip_pigsty_blank (lc ("#c x")) 0 = 0 ∧
     (get_next_pigsty_word (lc ("#c x")) 0).1 ≠ [] ∧
     tok_head (get_next_pigsty_word (lc ("#c x")) 0).1 = '#') ∧
    skip_pigsty_blank (lc (" #c\nz")) 0 =
      skip_pigsty_blank (lc (" #c\nz")) (skip_pigsty_comment (lc (" #c\nz")) 1) :=
  ⟨c10_hash_comment_only_after_blank.1 (lc ("#c x")) 0 (by decide),
   c10_hash_comment_only_after_blank.2 (lc (" #c\nz")) 0 (by decide) (by decide)⟩

theorem chAt_last : ∀ (l : List Char), l ≠ [] → chAt l (l.length - 1) = l.getLastD NUL
  | [_], _ => rfl
  | a :: b :: t, _ => by
    have ih := chAt_last (b :: t) (by simp)
    have h1 : chAt (a :: b :: t) ((a :: b :: t).length - 1) = chAt (b :: t) ((b :: t).length - 1) := by
      simp [chAt, List.getD]
    rw [h1, ih]
    simp [List.getLastD_cons]

/-- Claim C8, amended: the quoted-string classifier accepts a token (with
no embedded NUL) exactly when it is nonempty, begins with a double quote
and ends with a double quote — with no minimum length of 2, since for the
one-character token the first and last character coincide. -/
theorem c8_verify_string_amended (cs : List Char) (hn : NUL ∉ cs) :
    verify_string cs = true ↔
      cs ≠ [] ∧ cs.headD NUL = '"' ∧ cs.getLastD NUL = '"' := by
  have hlen : strlen_c cs = cs.length := by
    unfold strlen_c
    rw [List.takeWhile_eq_self_iff.mpr ?_]
    intro x hx
    simp only [Bool.not_eq_true']
    exact beq_eq_false_iff_ne.mpr (fun hxe => hn (hxe ▸ hx))
  cases cs with
  | nil => simp [verify_string, chAt, NUL]
  | cons a l =>
    have hl := chAt_last (a :: l) (by simp)
    simp only [verify_string, hlen, hl]
    have h0 : chAt (a :: l) 0 = a := rfl
    rw [h0]
    simp [tok_head]

/-- Witness for the amended claim C8 at a concrete two-quote token. -/
theorem c8_amended_witness :
    verify_string (lc ("\"ab\"")) = true ↔
      lc ("\"ab\"") ≠ [] ∧ (lc ("\"ab\"")).headD NUL = '"' ∧
        (lc ("\"ab\"")).getLastD NUL = '"' :=
  c8_verify_string_amended (lc ("\"ab\"")) (by decide)

theorem ip_version_of_eq_zero {conf : List pigsty_conf}
    (h : ∀ c ∈ conf, c.index ≠ kIpv4_version) : ip_version_of conf = 0 := by
  induction conf with
  | nil => rfl
  | cons c r ih =>
    have hc : (c.index == kIpv4_version) = false :=
      beq_eq_false_iff_ne.mpr (h c (by simp))
    simp only [ip_version_of, hc, Bool.false_and, if_false]
    exact ih (fun x hx => h x (by simp [hx]))

theorem verify_required_fields_eq_false {es : List pigsty_entry} {e : pigsty_entry}
    (he : e ∈ es) (hf : (check_required_entry e).toBool = false) :
    verify_required_fields es = false := by
  by_contra hc
  have ht : verify_required_fields es = true := by
    cases h : verify_required_fields es
    · exact absurd h hc
    · rfl
  have := List.all_eq_true.mp ht e he
  rw [hf] at this
  exact Bool.false_ne_true this

/-- Claim C4: for every document, if the store built by the two compiler
passes contains an entry with no `ip.version` configuration, that entry's
required-field check fails at the missing-version diagnostic and the whole
load returns nothing — a whole-document abort even when every other entry
is well-formed, since `verify_required_fields` is the conjunction of the
per-entry checks and `load_pigsty_data_from_file` destroys the store on
its failure. -/
theorem c4_missing_ip_version_aborts :
    ∀ (s : List Char) (es : List pigsty_entry) (e : pigsty_entry),
      built_store s = some es → e ∈ es →
      (∀ c ∈ e.conf, c.index ≠ kIpv4_version) →
      check_required_entry e = .error .missingIPVersion ∧
        load_pigsty_data s = none := by
  intro s es e hb he hv
  have hipv : ip_version_of e.conf = 0 := ip_version_of_eq_zero hv
  have hchk : check_required_entry e = .error .missingIPVersion := by
    simp [check_required_entry, hipv]
  refine ⟨hchk, ?_⟩
  have hvf : verify_required_fields es = false :=
    verify_required_fields_eq_false he (by simp [hchk, Except.toBool])
  unfold built_store at hb
  unfold load_pigsty_data
  cases hc : compile_pigsty_buffer s with
  | false => simp [hc] at hb
  | true =>
    simp only [hc, if_true] at hb
    simp only [hc, if_true]
    rw [hb]
    simp [hvf]

/-- Witness for claim C4 at a concrete document whose second entry lacks
`ip.version` while the first entry is complete. -/
theorem c4_witness :
    check_required_entry entry_b_c4 = .error .missingIPVersion ∧
      load_pigsty_data doc_c4 = none :=
  c4_missing_ip_version_aborts doc_c4 [entry_a, entry_b_c4] entry_b_c4
    (by decide) (by decide) (by decide)

theorem sig_scan_found_fresh (s : List Char) (es : List pigsty_entry) :
    ∀ fuel tok j name j2, sig_scan_f fuel s es tok j = .found name j2 →
      has_entry_name name es = false := by
  intro fuel
  induction fuel with
  | zero => intro tok j name j2 h; simp [sig_scan_f] at h
  | succ n ih =>
    intro tok j name j2 h
    simp only [sig_scan_f] at h
    split at h
    · simp at h
    · split at h
      · split at h
        · simp at h
        · rename_i hhas
          cases h
          simpa using hhas
      · exact ih _ _ _ _ h

theorem not_mem_store_names {name : List Char} {es : List pigsty_entry}
    (h : has_entry_name name es = false) : name ∉ store_names es := by
  intro hm
  simp only [store_names, List.mem_map] at hm
  obtain ⟨e, he, hname⟩ := hm
  have ht : has_entry_name name es = true :=
    List.any_eq_true.mpr ⟨e, he, by simp [hname]⟩
  rw [h] at ht
  exact Bool.false_ne_true ht

theorem mk_entry_names_nodup {es es1 : List pigsty_entry} {s : List Char} {i j : Nat}
    (hn : (store_names es).Nodup)
    (h : mk_pigsty_entry_from_compiled_buffer es s i = (some es1, j)) :
    (store_names es1).Nodup := by
  simp only [mk_pigsty_entry_from_compiled_buffer] at h
  cases hscan : sig_scan_f (bfuel s) s es (get_next_pigsty_word s i).1
      (get_next_pigsty_word s i).2 with
  | redecl n j2 => rw [hscan] at h; simp at h
  | notFound j2 =>
    rw [hscan] at h
    have : es1 = es := by
      have := congrArg Prod.fst h
      simpa using this.symm
    rw [this]; exact hn
  | found name j2 =>
    rw [hscan] at h
    have he1 : es1 = es ++
        [⟨name, (conf_scan_f (bfuel s) s (get_next_pigsty_word s i).1
          (get_next_pigsty_word s i).2 []).1⟩] := by
      have := congrArg Prod.fst h
      simpa using this.symm
    have hfresh := sig_scan_found_fresh s es (bfuel s) _ _ _ _ hscan
    rw [he1]
    have hmap : store_names (es ++
        [⟨name, (conf_scan_f (bfuel s) s (get_next_pigsty_word s i).1
          (get_next_pigsty_word s i).2 []).1⟩]) = store_names es ++ [name] := by
      simp [store_names]
    rw [hmap]
    rw [List.nodup_append]
    refine ⟨hn, List.nodup_singleton name, ?_⟩
    intro a ha hb
    have : a = name := by simpa using hb
    exact not_mem_store_names hfresh (this ▸ ha)

theorem make_all_names_nodup (s : List Char) :
    ∀ fuel i es, (store_names es).Nodup →
      ∀ es1, make_all_f fuel s i es = some es1 → (store_names es1).Nodup := by
  intro fuel
  induction fuel with
  | zero =>
    intro i es hn es1 h
    simp only [make_all_f] at h
    cases h
    exact hn
  | succ n ih =>
    intro i es hn es1 h
    simp only [make_all_f] at h
    cases hmk : mk_pigsty_entry_from_compiled_buffer es s i with
    | mk ofst osnd =>
      rw [hmk] at h
      cases ofst with
      | none => simp at h
      | some es2 =>
        have hpres := mk_entry_names_nodup hn hmk
        simp only at h
        split at h
        · cases h; exact hpres
        · exact ih osnd es2 hpres es1 h

/-- Claim C5: duplicate signature names abort the load with nothing
retained.  First part: a successfully loaded store never contains two
entries with the same name, because the builder checks each new name
against the store under construction.  Second part: at the moment the
signature scan of `mk_pigsty_entry_from_compiled_buffer` meets a name
that already exists in the store under construction, the builder returns
the NULL store — every entry built before the duplicate, including the
first bearer of the name, is discarded, and the load propagates the NULL
result to the caller. -/
theorem c5_duplicate_signature_aborts :
    (∀ (s : List Char) (es : List pigsty_entry),
      load_pigsty_data s = some es → (store_names es).Nodup) ∧
    (∀ (s : List Char) (i : Nat) (es : List pigsty_entry) (n : List Char) (j : Nat),
      sig_scan_f (bfuel s) s es (get_next_pigsty_word s i).1
          (get_next_pigsty_word s i).2 = .redecl n j →
      (mk_pigsty_entry_from_compiled_buffer es s i).1 = none) := by
  constructor
  · intro s es hl
    unfold load_pigsty_data at hl
    by_cases hc : compile_pigsty_buffer s = true
    · rw [if_pos hc] at hl
      cases hm : make_pigsty_data_from_loaded_data s with
      | none => rw [hm] at hl; exact absurd hl (by simp)
      | some es0 =>
        rw [hm] at hl
        have hl2 : (if verify_required_fields es0 = true then some es0 else none)
            = some es := hl
        by_cases hv : verify_required_fields es0 = true
        · rw [if_pos hv] at hl2
          injection hl2 with hinj
          subst hinj
          exact make_all_names_nodup s (bfuel s) 0 [] (by simp [store_names]) _ hm
        · rw [if_neg hv] at hl2; exact absurd hl2 (by simp)
    · rw [if_neg hc] at hl; exact absurd hl (by simp)
  · intro s i es n j hscan
    simp only [mk_pigsty_entry_from_compiled_buffer, hscan]

/-- Witness for claim C5: the good document loads with distinct names,
and the builder at the second block of `doc_c5` (cursor 73), whose
signature name `a` already exists in the store, returns the NULL store. -/
theorem c5_witness :
    (store_names [entry_t]).Nodup ∧
    (mk_pigsty_entry_from_compiled_buffer [entry_a] doc_c5 73).1 = none :=
  ⟨c5_duplicate_signature_aborts.1 doc_good [entry_t] (by decide),
   c5_duplicate_signature_aborts.2 doc_c5 73 [entry_a] (lc ("a")) 87 (by decide)⟩

/-- Claim C2, amended.  First part (as claimed): an entry holding some
TCP, UDP or ICMP field configuration but no `ip.protocol` configuration
makes required-field validation fail for any store containing it — indeed
absence of `ip.protocol` alone is fatal, since `ip.protocol` is also one
of the IPv4 required fields.  Second part (the claim corrected): the
entry with `ip.protocol` declared passes its required-field check
regardless of the protocol's numeric value, provided the entry also
passes the per-entry checks the claim omitted: its effective `ip.version`
value is 4, it declares `ip.src` and `ip.dst`, and the protocol value
read back is nonnegative (every loader-built value is, being a
u8-validated literal); the declared-protocol branch then accepts
unconditionally through the empty switch. -/
theorem c2_transport_requires_protocol_amended :
    (∀ (es : List pigsty_entry) (e : pigsty_entry), e ∈ es →
      (∃ c ∈ e.conf, c.index ∈ transport_indices) →
      (∀ c ∈ e.conf, c.index ≠ kIpv4_protocol) →
      verify_required_fields es = false) ∧
    (∀ e : pigsty_entry,
      ip_version_of e.conf = 4 →
      (∃ c ∈ e.conf, c.index = kIpv4_src) →
      (∃ c ∈ e.conf, c.index = kIpv4_dst) →
      (∃ c ∈ e.conf, c.index = kIpv4_protocol) →
      0 ≤ transport_layer_of e.conf →
      check_required_entry e = .ok ()) := by
  constructor
  · intro es e he _htrans hnoprot
    have hprot : (e.conf.any (fun c => c.index == kIpv4_protocol)) = false := by
      by_contra hc
      have ht : (e.conf.any (fun c => c.index == kIpv4_protocol)) = true := by
        cases h : e.conf.any (fun c => c.index == kIpv4_protocol)
        · exact absurd h hc
        · rfl
      obtain ⟨c, hcm, hcb⟩ := List.any_eq_true.mp ht
      exact hnoprot c hcm (by simpa using hcb)
    have hipv4 : verify_required_fields_ipv4 e.conf = false := by
      unfold verify_required_fields_ipv4 verify_required_datagram_fields
      by_contra hc
      have ht : ([kIpv4_src, kIpv4_dst, kIpv4_protocol].all
          (fun k => e.conf.any (fun c => c.index == k))) = true := by
        cases h : ([kIpv4_src, kIpv4_dst, kIpv4_protocol].all
            (fun k => e.conf.any (fun c => c.index == k)))
        · exact absurd h hc
        · rfl
      have := List.all_eq_true.mp ht kIpv4_protocol (by simp)
      rw [hprot] at this
      exact Bool.false_ne_true this
    have hfail : (check_required_entry e).toBool = false := by
      by_cases h0 : ip_version_of e.conf = 0
      · simp [check_required_entry, h0, Except.toBool]
      · have hb0 : (ip_version_of e.conf == (0 : Int)) = false :=
          beq_eq_false_iff_ne.mpr h0
        by_cases h4 : ip_version_of e.conf = 4
        · simp [check_required_entry, hb0, h4, hipv4, Except.toBool]
        · have hb4 : (ip_version_of e.conf == (4 : Int)) = false :=
            beq_eq_false_iff_ne.mpr h4
          simp [check_required_entry, hb0, hb4, Except.toBool]
    exact verify_required_fields_eq_false he hfail
  · intro e h4 hsrc hdst hprot htl
    have hipv4 : verify_required_fields_ipv4 e.conf = true := by
      unfold verify_required_fields_ipv4 verify_required_datagram_fields
      apply List.all_eq_true.mpr
      intro k hk
      simp only [List.mem_cons, List.not_mem_nil, or_false] at hk
      rcases hk with h | h | h <;> subst h
      · obtain ⟨c, hcm, hce⟩ := hsrc
        exact List.any_eq_true.mpr ⟨c, hcm, by simp [hce]⟩
      · obtain ⟨c, hcm, hce⟩ := hdst
        exact List.any_eq_true.mpr ⟨c, hcm, by simp [hce]⟩
      · obtain ⟨c, hcm, hce⟩ := hprot
        exact List.any_eq_true.mpr ⟨c, hcm, by simp [hce]⟩
    simp only [check_required_entry]
    rw [h4, hipv4]
    rw [if_neg (by decide), if_neg (by decide), if_neg (by decide)]
    rw [if_pos (by omega)]

/-- Witness for the amended claim C2: the entry of `doc_c2` (a `tcp.src`
configuration, no `ip.protocol`... here the variant with no protocol uses
its sibling store) fails, and the complete entry of `doc_c1`'s first
block passes its per-entry check. -/
theorem c2_amended_witness :
    verify_required_fields [⟨lc ("a"), [⟨kTcp_src, some (.intv 80)⟩]⟩] = false ∧
    check_required_entry entry_a = .ok () :=
  ⟨c2_transport_requires_protocol_amended.1
      [⟨lc ("a"), [⟨kTcp_src, some (.intv 80)⟩]⟩]
      ⟨lc ("a"), [⟨kTcp_src, some (.intv 80)⟩]⟩
      (by simp) (by decide) (by decide),
   c2_transport_requires_protocol_amended.2 entry_a (by decide) (by decide)
      (by decide) (by decide) (by decide)⟩

theorem drop_eq_chAt_cons {s : List Char} {j : Nat} (h : j < s.length) :
    s.drop j = chAt s j :: s.drop (j + 1) := by
  rw [List.drop_eq_getElem_cons h]
  simp [chAt, List.getD, List.getElem?_eq_getElem h]


theorem quote_spec_scan_stop {c : Char} (t : List Char) (h : c = '"' ∨ c = NUL) :
    quote_spec_scan (c :: t) = 0 := by
  have hb : (c == '"' || c == NUL) = true := by
    rcases h with h | h <;> simp [h]
  rw [quote_spec_scan.eq_def]
  split
  all_goals simp_all
  all_goals tauto

theorem quote_spec_scan_single {c : Char} (h : ¬(c = '"' ∨ c = NUL)) :
    quote_spec_scan [c] = 1 := by
  push_neg at h
  have hb : (c == '"' || c == NUL) = false := by simp [h.1, h.2]
  rw [quote_spec_scan.eq_def]
  split
  all_goals simp_all

theorem quote_spec_scan_esc_nil {c : Char} (h : ¬(c = '"' ∨ c = NUL)) :
    quote_spec_scan (c :: '\\' :: []) = 3 := by
  push_neg at h
  have hb : (c == '"' || c == NUL) = false := by simp [h.1, h.2]
  rw [quote_spec_scan.eq_def]
  split
  all_goals simp_all
  all_goals tauto

theorem quote_spec_scan_esc_cons {c x : Char} (t2 : List Char)
    (h : ¬(c = '"' ∨ c = NUL)) :
    quote_spec_scan (c :: '\\' :: x :: t2) = 3 + quote_spec_scan t2 := by
  push_neg at h
  have hb : (c == '"' || c == NUL) = false := by simp [h.1, h.2]
  rw [quote_spec_scan.eq_def]
  simp [hb]

theorem quote_spec_scan_ord {c d : Char} (t : List Char)
    (h : ¬(c = '"' ∨ c = NUL)) (hd : d ≠ '\\') :
    quote_spec_scan (c :: d :: t) = 1 + quote_spec_scan (d :: t) := by
  push_neg at h
  have hb : (c == '"' || c == NUL) = false := by simp [h.1, h.2]
  rw [quote_spec_scan.eq_def]
  split
  all_goals simp_all

theorem quote_scan_f_spec (s : List Char) :
    ∀ fuel j, s.length + 1 ≤ fuel + j →
      quote_scan_f fuel s j = j + quote_spec_scan (s.drop j) := by
  intro fuel
  induction fuel with
  | zero =>
    intro j h
    have hd : s.drop j = [] := List.drop_eq_nil_of_le (by omega)
    simp [quote_scan_f, hd, quote_spec_scan]
  | succ n ih =>
    intro j h
    by_cases hj : j < s.length
    case neg =>
      have hd : s.drop j = [] := List.drop_eq_nil_of_le (by omega)
      have hn : chAt s j = NUL := chAt_eq_nul_of_le s j (by omega)
      simp [quote_scan_f, hd, hn, quote_spec_scan]
    case pos =>
      have hd : s.drop j = chAt s j :: s.drop (j + 1) := drop_eq_chAt_cons hj
      by_cases hstop : chAt s j = '"' ∨ chAt s j = NUL
      · have hc : (!(chAt s j == '"') && !(chAt s j == NUL)) = false := by
          rcases hstop with h1 | h1 <;> simp [h1]
        have hlhs : quote_scan_f (n + 1) s j = j := by
          simp only [quote_scan_f, hc]
          simp
        rw [hlhs, hd, quote_spec_scan_stop _ hstop]
        omega
      · have hc : (!(chAt s j == '"') && !(chAt s j == NUL)) = true := by
          push_neg at hstop
          simp [hstop.1, hstop.2]
        by_cases hb : chAt s (j + 1) = '\\'
        · -- escape: the scanner jumps from j to j + 3
          have hj1 : j + 1 < s.length := lt_length_of_chAt_ne_nul (by rw [hb]; decide)
          have hd1 : s.drop (j + 1) = '\\' :: s.drop (j + 2) := by
            have h2 := drop_eq_chAt_cons hj1
            rw [hb] at h2
            exact h2
          have hstep : quote_scan_f (n + 1) s j = quote_scan_f n s (j + 3) := by
            simp only [quote_scan_f, hc, if_true]
            rw [if_pos (by simp [hb])]
          rw [hstep, ih (j + 3) (by omega), hd, hd1]
          cases hrest2 : s.drop (j + 2) with
          | nil =>
            have hlen2 : s.length ≤ j + 2 := by
              by_contra hcon
              rw [drop_eq_chAt_cons (by omega)] at hrest2
              exact List.noConfusion hrest2
            have hd3 : s.drop (j + 3) = [] := List.drop_eq_nil_of_le (by omega)
            rw [hd3, quote_spec_scan_esc_nil hstop]
            simp [quote_spec_scan]
          | cons x rest3 =>
            have hrest3 : rest3 = s.drop (j + 3) := by
              have h3 : s.drop (j + 2 + 1) = (s.drop (j + 2)).drop 1 := by
                rw [List.drop_drop]
              rw [hrest2] at h3
              simpa using h3.symm
            rw [← hrest3, quote_spec_scan_esc_cons rest3 hstop]
            omega
        · -- ordinary character: the scanner advances from j to j + 1
          have hstep : quote_scan_f (n + 1) s j = quote_scan_f n s (j + 1) := by
            simp only [quote_scan_f, hc, if_true]
            rw [if_neg (by simp [hb])]
          rw [hstep, ih (j + 1) (by omega), hd]
          cases hrest : s.drop (j + 1) with
          | nil =>
            rw [quote_spec_scan_single hstop]
            simp [quote_spec_scan]
          | cons d rest2 =>
            have hdne : d ≠ '\\' := by
              have hj1 : j + 1 < s.length := by
                by_contra hcon
                have hnil : s.drop (j + 1) = [] := List.drop_eq_nil_of_le (by omega)
                rw [hnil] at hrest
                exact List.noConfusion hrest
              have h2 := drop_eq_chAt_cons hj1
              rw [hrest] at h2
              intro hde
              apply hb
              rw [List.cons.injEq] at h2
              rw [← h2.1]
              exact hde
            rw [quote_spec_scan_ord rest2 hstop hdne]
            omega

/-- Claim C6, amended: whenever the next non-blank character is a double
quote, the returned token starts at that quote and spans exactly the
characters walked by the corrected scan `quote_spec_scan` plus the two
delimiting positions: from an examined position a quote (or the
terminator) ends the string; otherwise the scanner steps one character
and only a backslash reached by that step swallows itself and the
following character uninterpreted.  A backslash at an examined position
itself — first after the opening quote, or right after a completed
escape pair — is an ordinary character. -/
theorem c6_quoted_token_amended (s : List Char) (i : Nat)
    (h : chAt s (skip_pigsty_blank s i) = '"') :
    get_next_pigsty_word s i =
      (token_of s (skip_pigsty_blank s i)
        (skip_pigsty_blank s i + 2 +
          quote_spec_scan (s.drop (skip_pigsty_blank s i + 1))),
       skip_pigsty_blank s i + 2 +
        quote_spec_scan (s.drop (skip_pigsty_blank s i + 1))) := by
  have hws : word_scan s (skip_pigsty_blank s i)
      = skip_pigsty_blank s i + 2 +
        quote_spec_scan (s.drop (skip_pigsty_blank s i + 1)) := by
    rw [word_scan_unfold]
    rw [if_pos (show (!(is_pigsty_blank (chAt s (skip_pigsty_blank s i))) &&
        !(chAt s (skip_pigsty_blank s i) == NUL)) = true by rw [h]; decide)]
    rw [if_pos (show (chAt s (skip_pigsty_blank s i) == '"') = true by rw [h]; decide)]
    rw [quote_scan, quote_scan_f_spec s (bfuel s) (skip_pigsty_blank s i + 1)
        (by simp [bfuel]; omega)]
    omega
  simp only [get_next_pigsty_word]
  rw [if_pos (show (!(chAt s (skip_pigsty_blank s i) == '=') &&
      !(chAt s (skip_pigsty_blank s i) == ',') &&
      !(chAt s (skip_pigsty_blank s i) == '[')) = true by rw [h]; decide)]
  rw [hws]

/-- Witness for the amended claim C6 at a concrete buffer holding a
two-character quoted string followed by another word. -/
theorem c6_amended_witness :
    get_next_pigsty_word (lc ("\"ab\" x")) 0 =
      (token_of (lc ("\"ab\" x")) (skip_pigsty_blank (lc ("\"ab\" x")) 0)
        (skip_pigsty_blank (lc ("\"ab\" x")) 0 + 2 +
          quote_spec_scan ((lc ("\"ab\" x")).drop
            (skip_pigsty_blank (lc ("\"ab\" x")) 0 + 1))),
       skip_pigsty_blank (lc ("\"ab\" x")) 0 + 2 +
        quote_spec_scan ((lc ("\"ab\" x")).drop
          (skip_pigsty_blank (lc ("\"ab\" x")) 0 + 1))) :=
  c6_quoted_token_amended (lc ("\"ab\" x")) 0 (by decide)

theorem dec_prefix_val_lt : ∀ (xs : List Char) (acc : Nat),
    dec_prefix_val xs acc < (acc + 1) * 10 ^ xs.length := by
  intro xs
  induction xs with
  | nil => intro acc; simp [dec_prefix_val]
  | cons c r ih =>
    intro acc
    by_cases hc : isdigit_c c = true
    · have hd : c.toNat - 48 ≤ 9 := by
        simp [isdigit_c] at hc
        omega
      have h1 := ih (acc * 10 + (c.toNat - 48))
      have h2 : (acc * 10 + (c.toNat - 48) + 1) * 10 ^ r.length
          ≤ (acc + 1) * 10 ^ (r.length + 1) := by
        have : acc * 10 + (c.toNat - 48) + 1 ≤ (acc + 1) * 10 := by omega
        calc (acc * 10 + (c.toNat - 48) + 1) * 10 ^ r.length
            ≤ ((acc + 1) * 10) * 10 ^ r.length := Nat.mul_le_mul_right _ this
          _ = (acc + 1) * 10 ^ (r.length + 1) := by ring
      simp only [dec_prefix_val, hc, if_true, List.length_cons]
      omega
    · have hcf : isdigit_c c = false := by
        cases h : isdigit_c c
        · rfl
        · exact absurd h hc
      simp only [dec_prefix_val, hcf, Bool.false_eq_true, if_false, List.length_cons]
      have : (1 : Nat) ≤ 10 ^ (r.length + 1) := Nat.one_le_pow _ _ (by omega)
      have h3 : acc + 1 ≤ (acc + 1) * 10 ^ (r.length + 1) :=
        Nat.le_mul_of_pos_right _ (by omega)
      omega

theorem dec_prefix_append_nondigit : ∀ (xs : List Char) (acc : Nat) (y : Char)
    (zs : List Char), xs.all isdigit_c = true → isdigit_c y = false →
    dec_prefix_val (xs ++ y :: zs) acc = dec_prefix_val xs acc := by
  intro xs
  induction xs with
  | nil =>
    intro acc y zs _ hy
    simp [dec_prefix_val, hy]
  | cons c r ih =>
    intro acc y zs hall hy
    have hc : isdigit_c c = true := by
      have := List.all_eq_true.mp hall c (by simp)
      simpa using this
    have hr : r.all isdigit_c = true := by
      apply List.all_eq_true.mpr
      intro x hx
      exact List.all_eq_true.mp hall x (by simp [hx])
    simp only [List.cons_append, dec_prefix_val, hc, if_true]
    exact ih _ y zs hr hy

theorem c_atoi_digits {xs : List Char} (hall : xs.all isdigit_c = true)
    (hlen : xs.length ≤ 9) : c_atoi xs = (dec_prefix_val xs 0 : Int) := by
  have hlt : dec_prefix_val xs 0 < 10 ^ 9 := by
    have h1 := dec_prefix_val_lt xs 0
    have h2 : (0 + 1) * 10 ^ xs.length ≤ 10 ^ 9 := by
      simp only [Nat.one_mul, Nat.zero_add]
      exact Nat.pow_le_pow_right (by omega) hlen
    omega
  have hsmall : dec_prefix_val xs 0 < 2147483648 := by omega
  have hmin : min (dec_prefix_val xs 0) 9223372036854775807 = dec_prefix_val xs 0 := by
    omega
  simp only [c_atoi, hmin, int32_of_nat]
  have hmod : dec_prefix_val xs 0 % 4294967296 = dec_prefix_val xs 0 :=
    Nat.mod_eq_of_lt (by omega)
  rw [hmod, if_pos (by omega)]

theorem atoi_le255_iff {xs : List Char} (hall : xs.all isdigit_c = true)
    (hlen : xs.length ≤ 9) :
    (decide (0 ≤ c_atoi xs ∧ c_atoi xs ≤ 255) = true ↔ dec_prefix_val xs 0 ≤ 255) := by
  rw [c_atoi_digits hall hlen]
  simp only [decide_eq_true_eq]
  omega

theorem split_dots_ne_nil : ∀ r : List Char, split_dots r ≠ [] := by
  intro r
  cases r with
  | nil => simp [split_dots]
  | cons c rest =>
    simp only [split_dots]
    split
    · simp
    · cases h : split_dots rest with
      | nil => simp
      | cons g gs => simp

theorem set_append_length : ∀ (g : List Char) (c x : Char) (rest : List Char),
    (g ++ x :: rest).set g.length c = g ++ c :: rest := by
  intro g
  induction g with
  | nil => intro c x rest; simp
  | cons a l ih =>
    intro c x rest
    simp only [List.cons_append, List.length_cons, List.set_cons_succ]
    rw [ih]

theorem oct_of_set {g : List Char} (c : Char) (h : g.length ≤ 254) :
    (oct_of g).set g.length c = oct_of (g ++ [c]) := by
  have hrep : List.replicate (255 - g.length) NUL
      = NUL :: List.replicate (254 - g.length) NUL := by
    have : 255 - g.length = (254 - g.length) + 1 := by omega
    rw [this, List.replicate_succ]
  have hrep2 : oct_of (g ++ [c])
      = g ++ c :: List.replicate (254 - g.length) NUL := by
    unfold oct_of
    have : 255 - (g ++ [c]).length = 254 - g.length := by
      simp only [List.length_append, List.length_cons, List.length_nil]
      omega
    rw [this]
    simp
  rw [hrep2]
  unfold oct_of
  rw [hrep, set_append_length]

theorem c_atoi_oct_digits {g : List Char} (hall : g.all isdigit_c = true)
    (h : g.length ≤ 254) : c_atoi (oct_of g) = c_atoi g := by
  unfold oct_of
  have hrep : List.replicate (255 - g.length) NUL
      = NUL :: List.replicate (254 - g.length) NUL := by
    have : 255 - g.length = (254 - g.length) + 1 := by omega
    rw [this, List.replicate_succ]
  rw [hrep]
  unfold c_atoi
  rw [dec_prefix_append_nondigit g 0 NUL _ hall (by decide)]

theorem c_atoi_oct_dot {g : List Char} (hall : g.all isdigit_c = true)
    (h : g.length ≤ 254) : c_atoi (oct_of (g ++ ['.'])) = c_atoi (g ++ ['.']) := by
  unfold oct_of
  have hlen : (g ++ ['.']).length = g.length + 1 := by simp
  have hrec : (g ++ ['.']) ++ List.replicate (255 - (g ++ ['.']).length) NUL
      = g ++ '.' :: List.replicate (255 - (g ++ ['.']).length) NUL := by
    simp
  rw [hrec]
  unfold c_atoi
  rw [dec_prefix_append_nondigit g 0 '.' _ hall (by decide)]
  rw [show g ++ ['.'] = g ++ '.' :: [] from rfl]
  rw [dec_prefix_append_nondigit g 0 '.' [] hall (by decide)]

theorem mod_groups_cons_dot (g : List Char) (rest : List Char) :
    mod_groups g ('.' :: rest) = g :: split_dots rest := by
  unfold mod_groups
  simp only [split_dots, if_pos]
  simp

theorem mod_groups_cons_nondot {c : Char} (g : List Char) (rest : List Char)
    (hc : ¬(c == '.') = true) :
    mod_groups g (c :: rest) = mod_groups (g ++ [c]) rest := by
  unfold mod_groups
  cases h : split_dots rest with
  | nil => exact absurd h (split_dots_ne_nil rest)
  | cons g0 gs =>
    simp only [split_dots, if_neg hc, h]
    simp

theorem mod_groups_nil_left (r : List Char) : mod_groups [] r = split_dots r := by
  unfold mod_groups
  cases h : split_dots r with
  | nil => exact absurd h (split_dots_ne_nil r)
  | cons g0 gs => simp

theorem mod_groups_head_bound {g : List Char} {r : List Char} {B : Nat}
    (h : ∀ x ∈ mod_groups g r, x.length ≤ B) : g.length ≤ B := by
  unfold mod_groups at h
  cases hs : split_dots r with
  | nil => exact absurd hs (split_dots_ne_nil r)
  | cons g0 gs =>
    rw [hs] at h
    have := h (g ++ g0) (by simp)
    simp only [List.length_append] at this
    omega

theorem ipv4_loop_spec : ∀ (r g : List Char) (dots : Nat),
    g.all isdigit_c = true →
    (∀ h ∈ mod_groups g r, h.length ≤ 254) →
    ipv4_loop r (oct_of g) g.length dots = ipv4_spec_loop r g dots := by
  intro r
  induction r with
  | nil => intro g dots _ _; rfl
  | cons c rest ih =>
    intro g dots hall hlen
    rw [ipv4_loop.eq_2, ipv4_spec_loop.eq_2]
    by_cases hbad : (!(c == '.') && !(isdigit_c c)) = true
    · rw [if_pos hbad, if_pos hbad]
    · rw [if_neg hbad, if_neg hbad]
      have hghead : g.length ≤ 254 := mod_groups_head_bound hlen
      by_cases hbd : ((c == '.') || rest.isEmpty) = true
      · rw [if_pos hbd, if_pos hbd]
        have hoct1 : (if rest.isEmpty = true then (oct_of g).set g.length c else oct_of g)
            = oct_of (if rest.isEmpty = true then g ++ [c] else g) := by
          split
          · exact oct_of_set c hghead
          · rfl
        have hatoi : c_atoi (oct_of (if rest.isEmpty = true then g ++ [c] else g))
            = c_atoi (if rest.isEmpty = true then g ++ [c] else g) := by
          split
          · rename_i hre
            have hrnil : rest = [] := List.isEmpty_iff.mp hre
            by_cases hdot : (c == '.') = true
            · have hc : c = '.' := by simpa using hdot
              subst hc
              exact c_atoi_oct_dot hall hghead
            · have hdig : isdigit_c c = true := by
                cases hd : isdigit_c c
                · exfalso
                  apply hbad
                  simp only [Bool.and_eq_true, Bool.not_eq_true']
                  constructor
                  · cases he : (c == '.')
                    · rfl
                    · exact absurd he hdot
                  · exact hd
                · rfl
              have hall2 : (g ++ [c]).all isdigit_c = true := by
                rw [List.all_append]
                simp [hall, hdig]
              have hlen2 : (g ++ [c]).length ≤ 254 := by
                have hsplit : split_dots [c] = [[c]] := by
                  simp [split_dots, hdot]
                have hmem : g ++ [c] ∈ mod_groups g (c :: rest) := by
                  rw [hrnil]
                  unfold mod_groups
                  rw [hsplit]
                  simp
                exact hlen _ hmem
              exact c_atoi_oct_digits hall2 hlen2
          · exact c_atoi_oct_digits hall hghead
        have hb0 : ∀ h ∈ mod_groups ([] : List Char) rest, h.length ≤ 254 := by
          by_cases hdot : (c == '.') = true
          · have hc : c = '.' := by simpa using hdot
            subst hc
            rw [mod_groups_nil_left]
            intro h hh
            apply hlen h
            rw [mod_groups_cons_dot]
            simp [hh]
          · have hre : rest.isEmpty = true := by
              rcases Bool.or_eq_true_iff.mp hbd with h1 | h1
              · exact absurd h1 hdot
              · exact h1
            have hrnil : rest = [] := List.isEmpty_iff.mp hre
            subst hrnil
            intro h hh
            simp [mod_groups_nil_left, split_dots] at hh
            simp [hh]
        have hrec : ∀ d, ipv4_loop rest (List.replicate 255 NUL)
            ((18446744073709551615 + 1) % 18446744073709551616 % 255) d
            = ipv4_spec_loop rest [] d := by
          intro d
          rw [show ((18446744073709551615 + 1) % 18446744073709551616 % 255 : Nat) = 0
            by norm_num]
          rw [show List.replicate 255 NUL = oct_of [] by simp [oct_of]]
          exact ih [] d (by simp) hb0
        rw [hoct1]
        simp only [hatoi, hrec]
      · rw [if_neg hbd, if_neg hbd]
        have hdot : (c == '.') = false := by
          cases h : (c == '.')
          · rfl
          · exfalso; apply hbd; rw [h]; rfl
        have hdig : isdigit_c c = true := by
          cases hd : isdigit_c c
          · exfalso
            apply hbad
            simp only [Bool.and_eq_true, Bool.not_eq_true']
            exact ⟨hdot, hd⟩
          · rfl
        have hmg : mod_groups g (c :: rest) = mod_groups (g ++ [c]) rest :=
          mod_groups_cons_nondot g rest (by rw [hdot]; simp)
        have hlen2 : ∀ h ∈ mod_groups (g ++ [c]) rest, h.length ≤ 254 := by
          intro h hh
          exact hlen h (by rw [hmg]; exact hh)
        have hglen : (g ++ [c]).length ≤ 254 := mod_groups_head_bound hlen2
        have hall2 : (g ++ [c]).all isdigit_c = true := by
          rw [List.all_append]
          simp [hall, hdig]
        have hoct : (oct_of g).set g.length c = oct_of (g ++ [c]) :=
          oct_of_set c hghead
        have hmod : (g.length + 1) % 255 = (g ++ [c]).length := by
          have h1 : (g ++ [c]).length = g.length + 1 := by simp
          rw [h1]
          apply Nat.mod_eq_of_lt
          rw [h1] at hglen
          omega
        rw [hoct, hmod]
        exact ih (g ++ [c]) dots hall2 hlen2

theorem spec_loop_step_bad {c : Char} (g rest : List Char) (dots : Nat)
    (hbad : (!(c == '.') && !(isdigit_c c)) = true) :
    ipv4_spec_loop (c :: rest) g dots = false := by
  rw [ipv4_spec_loop.eq_2, if_pos hbad]

theorem spec_loop_step_boundary {c : Char} (g rest : List Char) (dots : Nat)
    (hok : ¬(!(c == '.') && !(isdigit_c c)) = true)
    (hbd : ((c == '.') || rest.isEmpty) = true) :
    ipv4_spec_loop (c :: rest) g dots =
      (if decide (0 ≤ c_atoi (if rest.isEmpty = true then g ++ [c] else g) ∧
            c_atoi (if rest.isEmpty = true then g ++ [c] else g) ≤ 255) = true
       then ipv4_spec_loop rest [] (if (c == '.') = true then dots + 1 else dots)
       else false) := by
  rw [ipv4_spec_loop.eq_2, if_neg hok, if_pos hbd]

theorem spec_loop_step_inner {c : Char} (g rest : List Char) (dots : Nat)
    (hok : ¬(!(c == '.') && !(isdigit_c c)) = true)
    (hbd : ¬((c == '.') || rest.isEmpty) = true) :
    ipv4_spec_loop (c :: rest) g dots = ipv4_spec_loop rest (g ++ [c]) dots := by
  rw [ipv4_spec_loop.eq_2, if_neg hok, if_neg hbd]

theorem ipv4_spec_loop_iff : ∀ (r g : List Char) (dots : Nat),
    g.all isdigit_c = true →
    (r = [] → g = []) →
    (∀ h ∈ mod_groups g r, h.length ≤ 9) →
    (ipv4_spec_loop r g dots = true ↔
      (r.all (fun c => isdigit_c c || c == '.') = true ∧
       dots + r.count '.' = 3 ∧
       ∀ h ∈ mod_groups g r, dec_prefix_val h 0 ≤ 255)) := by
  intro r
  induction r with
  | nil =>
    intro g dots hall hnil hlen
    have hg : g = [] := hnil rfl
    subst hg
    simp [ipv4_spec_loop, mod_groups, split_dots, dec_prefix_val]
  | cons c rest ih =>
    intro g dots hall hnil hlen
    by_cases hbad : (!(c == '.') && !(isdigit_c c)) = true
    · rw [spec_loop_step_bad g rest dots hbad]
      have hc : (isdigit_c c || c == '.') = false := by
        simp only [Bool.and_eq_true, Bool.not_eq_true'] at hbad
        simp [hbad.1, hbad.2]
      simp [List.all_cons, hc]
    · by_cases hdot : (c == '.') = true
      · -- dot: group boundary; the accumulated group g is checked here
        have hceq : c = '.' := by simpa using hdot
        subst hceq
        have hghead : g.length ≤ 9 := mod_groups_head_bound hlen
        have hgcond : ∀ g1, dec_prefix_val g1 0 = dec_prefix_val g 0 →
            (decide (0 ≤ c_atoi g1 ∧ c_atoi g1 ≤ 255) = true ↔
              dec_prefix_val g 0 ≤ 255) := by
          intro g1 hdec
          have he : c_atoi g1 = c_atoi g := by
            unfold c_atoi
            rw [hdec]
          rw [he]
          exact atoi_le255_iff hall hghead
        rw [spec_loop_step_boundary g rest dots hbad (by simp)]
        cases hre : rest with
        | nil =>
          subst hre
          rw [show (if ([] : List Char).isEmpty = true then g ++ ['.'] else g)
              = g ++ ['.'] from rfl]
          rw [show (if (('.' : Char) == '.') = true then dots + 1 else dots)
              = dots + 1 from rfl]
          have hdec : dec_prefix_val (g ++ ['.']) 0 = dec_prefix_val g 0 :=
            dec_prefix_append_nondigit g 0 '.' [] hall (by decide)
          by_cases hP : dec_prefix_val g 0 ≤ 255
          · rw [if_pos ((hgcond (g ++ ['.']) hdec).mpr hP)]
            rw [ipv4_spec_loop.eq_1]
            constructor
            · intro hb
              refine ⟨by decide, ?_, ?_⟩
              · simp [List.count_cons] at hb ⊢
                omega
              · intro h hh
                rw [mod_groups_cons_dot] at hh
                simp only [split_dots, List.mem_cons, List.not_mem_nil, or_false] at hh
                rcases hh with hh | hh
                · rw [hh]; exact hP
                · rw [hh]; simp [dec_prefix_val]
            · rintro ⟨-, h2, -⟩
              simp [List.count_cons] at h2 ⊢
              omega
          · rw [if_neg (fun hc => hP ((hgcond (g ++ ['.']) hdec).mp hc))]
            constructor
            · intro h; exact absurd h (by simp)
            · rintro ⟨-, -, h3⟩
              exfalso
              apply hP
              apply h3 g
              rw [mod_groups_cons_dot]
              simp
        | cons x xs =>
          subst hre
          rw [show (if ((x :: xs) : List Char).isEmpty = true then g ++ ['.'] else g)
              = g from rfl]
          rw [show (if (('.' : Char) == '.') = true then dots + 1 else dots)
              = dots + 1 from rfl]
          by_cases hP : dec_prefix_val g 0 ≤ 255
          · rw [if_pos ((hgcond g rfl).mpr hP)]
            have hb0 : ∀ h ∈ mod_groups ([] : List Char) (x :: xs), h.length ≤ 9 := by
              rw [mod_groups_nil_left]
              intro h hh
              apply hlen h
              rw [mod_groups_cons_dot]
              simp [hh]
            rw [ih [] (dots + 1) (by simp) (by simp) hb0]
            rw [mod_groups_nil_left, mod_groups_cons_dot]
            constructor
            · rintro ⟨h1, h2, h3⟩
              refine ⟨by simp [h1], ?_, ?_⟩
              · simp [List.count_cons] at h2 ⊢
                omega
              · intro h hh
                simp only [List.mem_cons] at hh
                rcases hh with hh | hh
                · rw [hh]; exact hP
                · exact h3 h hh
            · rintro ⟨h1, h2, h3⟩
              refine ⟨by simp at h1 ⊢; exact h1, ?_, ?_⟩
              · simp [List.count_cons] at h2 ⊢
                omega
              · intro h hh
                exact h3 h (by simp [hh])
          · rw [if_neg (fun hc => hP ((hgcond g rfl).mp hc))]
            constructor
            · intro h; exact absurd h (by simp)
            · rintro ⟨-, -, h3⟩
              exfalso
              apply hP
              apply h3 g
              rw [mod_groups_cons_dot]
              simp
      · -- digit: the group keeps growing
        have hdig : isdigit_c c = true := by
          cases hd : isdigit_c c
          · exfalso
            apply hbad
            simp only [Bool.and_eq_true, Bool.not_eq_true']
            constructor
            · cases he : (c == '.')
              · rfl
              · exact absurd he hdot
            · exact hd
          · rfl
        have hdotf : (c == '.') = false := by
          cases h : (c == '.')
          · rfl
          · exact absurd h hdot
        have hmg : mod_groups g (c :: rest) = mod_groups (g ++ [c]) rest :=
          mod_groups_cons_nondot g rest (by rw [hdotf]; simp)
        have hall2 : (g ++ [c]).all isdigit_c = true := by
          rw [List.all_append]
          simp [hall, hdig]
        cases hre : rest with
        | nil =>
          subst hre
          rw [spec_loop_step_boundary g [] dots hbad (by simp)]
          rw [show (if ([] : List Char).isEmpty = true then g ++ [c] else g)
              = g ++ [c] from rfl]
          rw [if_neg (by rw [hdotf]; simp : ¬((c == '.') = true))]
          have hglen : (g ++ [c]).length ≤ 9 := by
            apply mod_groups_head_bound (r := [])
            intro h hh
            exact hlen h (by rw [hmg]; exact hh)
          by_cases hP : dec_prefix_val (g ++ [c]) 0 ≤ 255
          · rw [if_pos ((atoi_le255_iff hall2 hglen).mpr hP)]
            rw [ipv4_spec_loop.eq_1]
            constructor
            · intro hb
              refine ⟨by simp [hdig], ?_, ?_⟩
              · simp [List.count_cons, hdotf] at hb ⊢
                omega
              · intro h hh
                rw [hmg] at hh
                have hhe : h = g ++ [c] := by
                  simpa [mod_groups, split_dots] using hh
                rw [hhe]
                exact hP
            · rintro ⟨-, h2, -⟩
              simp [List.count_cons, hdotf] at h2 ⊢
              omega
          · rw [if_neg (fun hc => hP ((atoi_le255_iff hall2 hglen).mp hc))]
            constructor
            · intro h; exact absurd h (by simp)
            · rintro ⟨-, -, h3⟩
              exfalso
              apply hP
              apply h3 (g ++ [c])
              rw [hmg]
              simp only [mod_groups, split_dots]
              simp
        | cons x xs =>
          subst hre
          rw [spec_loop_step_inner g (x :: xs) dots hbad
            (by rw [hdotf]; simp)]
          have hb2 : ∀ h ∈ mod_groups (g ++ [c]) (x :: xs), h.length ≤ 9 := by
            intro h hh
            exact hlen h (by rw [hmg]; exact hh)
          rw [ih (g ++ [c]) dots hall2 (by simp) hb2]
          rw [← hmg]
          constructor
          · rintro ⟨h1, h2, h3⟩
            refine ⟨by simp [hdig, h1], ?_, h3⟩
            simp [List.count_cons, hdotf] at h2 ⊢
            omega
          · rintro ⟨h1, h2, h3⟩
            refine ⟨by simp at h1 ⊢; exact h1.2, ?_, h3⟩
            simp [List.count_cons, hdotf] at h2 ⊢
            omega

/-- Claim C7, amended: the IPv4 classifier accepts a token exactly when it
is one of the five symbolic tags verbatim, or it consists only of digits
and dots, has exactly three dots, and every dot-separated group has
decimal value at most 255 — an empty group counting as value 0, so that
tokens such as `1.2.3.` or `1..2.3` are also accepted.  Stated for tokens
whose groups have at most 9 digits; longer groups run into the 255-byte
scratch buffer and the 32-bit `atoi` conversion. -/
theorem c7_ipv4_classifier_amended (cs : List Char)
    (h : ∀ g ∈ split_dots cs, g.length ≤ 9) :
    verify_ipv4_addr cs = true ↔ amended_ipv4_ok cs = true := by
  unfold verify_ipv4_addr amended_ipv4_ok
  by_cases htag : ipv4_symbols.any (fun t => t == cs) = true
  · simp [htag]
  · have htagf : ipv4_symbols.any (fun t => t == cs) = false := by
      cases hx : ipv4_symbols.any (fun t => t == cs)
      · rfl
      · exact absurd hx htag
    rw [if_neg htag, htagf]
    simp only [Bool.false_or]
    have hb254 : ∀ x ∈ mod_groups [] cs, x.length ≤ 254 := by
      rw [mod_groups_nil_left]
      intro x hx
      have := h x hx
      omega
    have hb9 : ∀ x ∈ mod_groups [] cs, x.length ≤ 9 := by
      rw [mod_groups_nil_left]
      exact h
    have h1 : ipv4_loop cs (List.replicate 255 NUL) 0 0 = ipv4_spec_loop cs [] 0 := by
      have h2 := ipv4_loop_spec cs [] 0 (by simp) hb254
      simpa [oct_of] using h2
    rw [h1, ipv4_spec_loop_iff cs [] 0 (by simp) (fun _ => rfl) hb9]
    rw [mod_groups_nil_left]
    simp only [Bool.and_eq_true, List.all_eq_true, beq_iff_eq, decide_eq_true_eq]
    constructor
    · rintro ⟨h1, h2, h3⟩
      exact ⟨⟨h1, by omega⟩, h3⟩
    · rintro ⟨⟨h1, h2⟩, h3⟩
      exact ⟨h1, by omega, h3⟩

/-- Witness for the amended claim C7 at a concrete dotted quad. -/
theorem c7_amended_witness :
    verify_ipv4_addr (lc ("10.0.0.1")) = true ↔
      amended_ipv4_ok (lc ("10.0.0.1")) = true :=
  c7_ipv4_classifier_amended (lc ("10.0.0.1")) (by decide)

theorem chAt_zero_head (l : List Char) : chAt l 0 = tok_head l := by
  cases l <;> rfl

theorem idx_some_mem {tok : List Char} {k : Nat}
    (h : get_pigsty_field_index tok = some k) :
    ∃ f ∈ SIGNATURE_FIELDS, f.label = tok ∧ f.index = k := by
  unfold get_pigsty_field_index at h
  cases hf : SIGNATURE_FIELDS.find? (fun f => f.label == tok) with
  | none => rw [hf] at h; simp at h
  | some f =>
    rw [hf] at h
    refine ⟨f, List.mem_of_find?_eq_some hf, ?_, by simpa using h⟩
    have := List.find?_some hf
    simpa using this

theorem table_index_lt : ∀ f ∈ SIGNATURE_FIELDS, f.index < 39 := by decide

theorem table_label_head : ∀ f ∈ SIGNATURE_FIELDS,
    tok_head f.label ≠ ']' ∧ tok_head f.label ≠ ',' ∧ tok_head f.label ≠ '='
      ∧ tok_head f.label ≠ '[' := by decide

theorem idx_bound {tok : List Char} {k : Nat}
    (h : get_pigsty_field_index tok = some k) : k < 39 := by
  obtain ⟨f, hf, _, hk⟩ := idx_some_mem h
  exact hk ▸ table_index_lt f hf

theorem idx_head_ne {tok : List Char} {k : Nat}
    (h : get_pigsty_field_index tok = some k) :
    tok_head tok ≠ ']' ∧ tok_head tok ≠ ',' ∧ tok_head tok ≠ '='
      ∧ tok_head tok ≠ '[' := by
  obtain ⟨f, hf, hl, -⟩ := idx_some_mem h
  exact hl ▸ table_label_head f hf

theorem idx_none_of_head {tok : List Char}
    (h : tok_head tok = ']' ∨ tok_head tok = ',' ∨ tok_head tok = '='
      ∨ tok_head tok = '[' ∨ tok_head tok = NUL ∨ tok_head tok = '"') :
    get_pigsty_field_index tok = none := by
  cases hi : get_pigsty_field_index tok with
  | none => rfl
  | some k =>
    exfalso
    obtain ⟨f, hf, hl, -⟩ := idx_some_mem hi
    have hh := table_label_head f hf
    rw [hl] at hh
    rcases h with h | h | h | h | h | h
    · exact hh.1 h
    · exact hh.2.1 h
    · exact hh.2.2.1 h
    · exact hh.2.2.2 h
    · -- a label never starts with NUL nor a quote: check against the table
      obtain ⟨f2, hf2, hl2, -⟩ := idx_some_mem hi
      have : ∀ g ∈ SIGNATURE_FIELDS, tok_head g.label ≠ NUL := by decide
      exact this f2 hf2 (hl2 ▸ h)
    · obtain ⟨f2, hf2, hl2, -⟩ := idx_some_mem hi
      have : ∀ g ∈ SIGNATURE_FIELDS, tok_head g.label ≠ '"' := by decide
      exact this f2 hf2 (hl2 ▸ h)

theorem table_verifier_label_false :
    ∀ f ∈ SIGNATURE_FIELDS, ∀ g ∈ SIGNATURE_FIELDS, f.verifier g.label = false := by
  decide

theorem head_of_int {cs : List Char} (h : verify_int cs = true) :
    tok_head cs ≠ ']' := by
  cases cs with
  | nil => decide
  | cons c r =>
    simp only [verify_int, List.all_cons, Bool.and_eq_true] at h
    intro he
    have he2 : c = ']' := he
    subst he2
    exact absurd h.1 (by decide)

theorem head_of_hex_aux {cs : List Char} (h : verify_hex cs = true) :
    tok_head cs ≠ ']' := by
  rw [verify_hex.eq_def] at h
  split at h
  · intro he
    have he2 : '0' = ']' := he
    exact absurd he2 (by decide)
  · exact absurd h (by decide)

theorem u_retval_of_not {cs : List Char} (h1 : verify_hex cs = false)
    (h2 : verify_int cs = false) : u_retval cs = -1 := by
  simp [u_retval, h1, h2]

theorem head_of_u {cs : List Char} (h : 0 ≤ u_retval cs) :
    tok_head cs ≠ ']' := by
  by_cases hh : verify_hex cs = true
  · exact head_of_hex_aux hh
  · by_cases hi : verify_int cs = true
    · exact head_of_int hi
    · rw [u_retval_of_not (by simpa using hh) (by simpa using hi)] at h
      exact absurd h (by decide)

theorem head_of_u1 : ∀ cs, verify_u1 cs = true → tok_head cs ≠ ']' := by
  intro cs h
  apply head_of_u
  rcases of_decide_eq_true h with h0 | h0 <;> omega

theorem head_of_u3 : ∀ cs, verify_u3 cs = true → tok_head cs ≠ ']' :=
  fun _ h => head_of_u (of_decide_eq_true h).1

theorem head_of_u4 : ∀ cs, verify_u4 cs = true → tok_head cs ≠ ']' :=
  fun _ h => head_of_u (of_decide_eq_true h).1

theorem head_of_u6 : ∀ cs, verify_u6 cs = true → tok_head cs ≠ ']' :=
  fun _ h => head_of_u (of_decide_eq_true h).1

theorem head_of_u8 : ∀ cs, verify_u8 cs = true → tok_head cs ≠ ']' :=
  fun _ h => head_of_u (of_decide_eq_true h).1

theorem head_of_u13 : ∀ cs, verify_u13 cs = true → tok_head cs ≠ ']' :=
  fun _ h => head_of_u (of_decide_eq_true h).1

theorem head_of_u16 : ∀ cs, verify_u16 cs = true → tok_head cs ≠ ']' :=
  fun _ h => head_of_u (of_decide_eq_true h).1

theorem head_of_u32 : ∀ cs, verify_u32 cs = true → tok_head cs ≠ ']' :=
  fun _ h => head_of_u (of_decide_eq_true h)

theorem head_of_string : ∀ cs, verify_string cs = true → tok_head cs ≠ ']' := by
  intro cs h
  simp only [verify_string, Bool.and_eq_true, beq_iff_eq] at h
  rw [← chAt_zero_head, h.1]
  decide

theorem head_of_ip_version : ∀ cs, verify_ip_version cs = true →
    tok_head cs ≠ ']' := by
  intro cs h
  simp only [verify_ip_version, Bool.and_eq_true, Bool.or_eq_true] at h
  rcases h.1 with ((((h0|h0)|h0)|h0)|h0)|h0
  · exact head_of_u3 _ h0
  · exact head_of_u4 _ h0
  · exact head_of_u8 _ h0
  · exact head_of_u13 _ h0
  · exact head_of_u16 _ h0
  · exact head_of_u32 _ h0

theorem head_of_ipv4 : ∀ cs, verify_ipv4_addr cs = true → tok_head cs ≠ ']' := by
  intro cs h
  cases hs : ipv4_symbols.any (fun t => t == cs) with
  | true =>
    simp only [ipv4_symbols, List.any_cons, List.any_nil, Bool.or_eq_true,
      beq_iff_eq] at hs
    rcases hs with rfl | rfl | rfl | rfl | rfl | hs
    · decide
    · decide
    · decide
    · decide
    · decide
    · exact absurd hs (by decide)
  | false =>
    simp only [verify_ipv4_addr, hs, Bool.false_eq_true, if_false] at h
    cases cs with
    | nil => rw [ipv4_loop.eq_1] at h; exact absurd h (by decide)
    | cons c r =>
      by_cases hbad : (!(c == '.') && !(isdigit_c c)) = true
      · rw [ipv4_loop.eq_2, if_pos hbad] at h
        exact absurd h (by decide)
      · have hb : (c == '.') = true ∨ isdigit_c c = true := by
          rcases Bool.eq_false_or_eq_true (c == '.') with h1 | h1
          · exact Or.inl h1
          · rcases Bool.eq_false_or_eq_true (isdigit_c c) with h2 | h2
            · exact Or.inr h2
            · exact absurd (by simp [h1, h2]) hbad
        intro he
        have he2 : c = ']' := he
        subst he2
        rcases hb with hb | hb
        · exact absurd hb (by decide)
        · exact absurd hb (by decide)

theorem table_verifier_head :
    ∀ f ∈ SIGNATURE_FIELDS, ∀ tok, f.verifier tok = true → tok_head tok ≠ ']' := by
  intro f hf
  fin_cases hf <;>
    first
      | exact head_of_ip_version
      | exact head_of_u1
      | exact head_of_u3
      | exact head_of_u4
      | exact head_of_u6
      | exact head_of_u8
      | exact head_of_u13
      | exact head_of_u16
      | exact head_of_u32
      | exact head_of_ipv4
      | exact head_of_string

theorem field_verifier_head {k : Nat} {tok : List Char}
    (h : field_verifier k tok = true) : tok_head tok ≠ ']' := by
  unfold field_verifier at h
  by_cases hk : k < SIGNATURE_FIELDS.length
  · rw [List.getD_eq_getElem _ _ hk] at h
    exact table_verifier_head _ (List.getElem_mem hk) _ h
  · have h39 : SIGNATURE_FIELDS.length ≤ k := Nat.le_of_not_lt hk
    simp only [List.getD] at h
    rw [List.get?_eq_none.mpr h39] at h
    simp only [Option.getD_none] at h
    exact absurd h (by decide)

theorem field_verifier_not_label {k : Nat} {tok : List Char}
    (h : field_verifier k tok = true) : get_pigsty_field_index tok = none := by
  cases hi : get_pigsty_field_index tok with
  | none => rfl
  | some k2 =>
    exfalso
    obtain ⟨g, hg, hl, -⟩ := idx_some_mem hi
    unfold field_verifier at h
    by_cases hk : k < SIGNATURE_FIELDS.length
    · rw [List.getD_eq_getElem _ _ hk] at h
      have hfalse := table_verifier_label_false _ (List.getElem_mem hk) g hg
      rw [hl] at hfalse
      rw [hfalse] at h
      exact absurd h (by decide)
    · have h39 : SIGNATURE_FIELDS.length ≤ k := Nat.le_of_not_lt hk
      simp only [List.getD] at h
      rw [List.get?_eq_none.mpr h39] at h
      simp only [Option.getD_none] at h
      exact absurd h (by decide)

theorem getD_set_self : ∀ (l : List Bool) (k : Nat) (a b : Bool), k < l.length →
    (l.set k a).getD k b = a := by
  intro l
  induction l with
  | nil => intro k a b h; simp at h
  | cons x xs ih =>
    intro k a b h
    cases k with
    | zero => rfl
    | succ k2 =>
      simp only [List.set_cons_succ, List.getD_cons_succ]
      exact ih k2 a b (by simpa using h)

theorem getD_set_ne : ∀ (l : List Bool) (k k2 : Nat) (a b : Bool), k ≠ k2 →
    (l.set k a).getD k2 b = l.getD k2 b := by
  intro l
  induction l with
  | nil => intro k k2 a b h; rfl
  | cons x xs ih =>
    intro k k2 a b h
    cases k with
    | zero =>
      cases k2 with
      | zero => exact absurd rfl h
      | succ m => rfl
    | succ km =>
      cases k2 with
      | zero => rfl
      | succ m =>
        simp only [List.set_cons_succ, List.getD_cons_succ]
        exact ih km m a b (fun hh => h (by rw [hh]))

theorem word_at_nul (s : List Char) {j : Nat} (h : chAt s j = NUL) :
    get_next_pigsty_word s j = ([], j) := by
  have hbp : skip_pigsty_blank s j = j := by
    rw [skip_pigsty_blank_unfold, h]
    simp [is_pigsty_blank, NUL]
  have hws : word_scan s j = j := by
    rw [word_scan_unfold, h]
    simp
  simp only [get_next_pigsty_word, hbp, h]
  rw [if_pos (by simp [NUL])]
  rw [hws]
  simp [token_of]

theorem conf_scan_nul (s : List Char) {j : Nat} (h : chAt s j = NUL) :
    ∀ (f : Nat) (tok : List Char) (confs : List pigsty_conf),
      conf_scan_f f s tok j confs = (confs, j) := by
  intro f tok confs
  cases f with
  | zero => rfl
  | succ g => simp [conf_scan_f, h]

theorem compile_loop_nul (s : List Char) {j : Nat} (h : chAt s j = NUL) :
    ∀ (f state fidx : Nat) (tok : List Char) (fmap : List Bool),
      compile_loop_f f s tok j state fmap fidx = .ok j := by
  intro f state fidx tok fmap
  cases f with
  | zero => rfl
  | succ g => simp [compile_loop_f, h]

theorem compile_loop_s0 (f : Nat) (s tok : List Char) (j : Nat) (fmap : List Bool)
    (fidx : Nat) :
    compile_loop_f (f + 1) s tok j 0 fmap fidx =
      if chAt s j == NUL then .ok j
      else
        match get_pigsty_field_index tok with
        | none => .error (.unknownField tok)
        | some k =>
          if fmap.getD k false then .error (.duplicateField k)
          else if tok_head tok == ']' then Except.ok j
          else compile_loop_f f s (get_next_pigsty_word s j).1
            (get_next_pigsty_word s j).2 1 (fmap.set k true) k := rfl

theorem compile_loop_s1 (f : Nat) (s tok : List Char) (j : Nat) (fmap : List Bool)
    (fidx : Nat) :
    compile_loop_f (f + 1) s tok j 1 fmap fidx =
      if chAt s j == NUL then .ok j
      else
        if tok == lc ("=") then
          if tok_head tok == ']' then Except.ok j
          else compile_loop_f f s (get_next_pigsty_word s j).1
            (get_next_pigsty_word s j).2 2 fmap fidx
        else .error .expectedEquals := rfl

theorem compile_loop_s2 (f : Nat) (s tok : List Char) (j : Nat) (fmap : List Bool)
    (fidx : Nat) :
    compile_loop_f (f + 1) s tok j 2 fmap fidx =
      if chAt s j == NUL then .ok j
      else
        if field_verifier fidx tok then
          if tok_head tok == ']' then Except.ok j
          else compile_loop_f f s (get_next_pigsty_word s j).1
            (get_next_pigsty_word s j).2 3 fmap fidx
        else .error (.invalidValue fidx tok) := rfl

theorem compile_loop_s3 (f : Nat) (s tok : List Char) (j st : Nat) (fmap : List Bool)
    (fidx : Nat) :
    compile_loop_f (f + 1) s tok j (st + 3) fmap fidx =
      if chAt s j == NUL then .ok j
      else
        if tok_head tok == ',' || tok_head tok == ']' then
          if tok_head tok == ']' then Except.ok j
          else compile_loop_f f s (get_next_pigsty_word s j).1
            (get_next_pigsty_word s j).2 0 fmap fidx
        else .error .missingSeparator := rfl

theorem conf_scan_step_skip (f : Nat) (s tok : List Char) (j : Nat)
    (confs : List pigsty_conf) (hnul : chAt s j ≠ NUL)
    (hidx : get_pigsty_field_index tok = none) :
    conf_scan_f (f + 1) s tok j confs =
      if tok_head (get_next_pigsty_word s j).1 == ']' then
        (confs, (get_next_pigsty_word s j).2)
      else conf_scan_f f s (get_next_pigsty_word s j).1
        (get_next_pigsty_word s j).2 confs := by
  simp only [conf_scan_f]
  rw [if_neg (by simp [hnul]), hidx]

theorem conf_scan_step_sig (f : Nat) (s tok : List Char) (j : Nat)
    (confs : List pigsty_conf) (hnul : chAt s j ≠ NUL)
    (hidx : get_pigsty_field_index tok = some kSignature) :
    conf_scan_f (f + 1) s tok j confs =
      if tok_head (get_next_pigsty_word s j).1 == ']' then
        (confs, (get_next_pigsty_word s j).2)
      else conf_scan_f f s (get_next_pigsty_word s j).1
        (get_next_pigsty_word s j).2 confs := by
  simp only [conf_scan_f]
  rw [if_neg (by simp [hnul]), hidx]
  simp

theorem conf_scan_step_label (f : Nat) (s tok : List Char) (j : Nat)
    (confs : List pigsty_conf) (k : Nat) (hnul : chAt s j ≠ NUL)
    (hidx : get_pigsty_field_index tok = some k) (hk : (k == kSignature) = false) :
    conf_scan_f (f + 1) s tok j confs =
      (if tok_head (get_next_pigsty_word s
            (get_next_pigsty_word s (get_next_pigsty_word s j).2).2).1 == ']' then
        (confs ++ [⟨k, encode_value (get_next_pigsty_word s (get_next_pigsty_word s j).2).1⟩],
         (get_next_pigsty_word s (get_next_pigsty_word s (get_next_pigsty_word s j).2).2).2)
      else conf_scan_f f s
        (get_next_pigsty_word s (get_next_pigsty_word s (get_next_pigsty_word s j).2).2).1
        (get_next_pigsty_word s (get_next_pigsty_word s (get_next_pigsty_word s j).2).2).2
        (confs ++ [⟨k, encode_value (get_next_pigsty_word s (get_next_pigsty_word s j).2).1⟩])) := by
  simp only [conf_scan_f]
  rw [if_neg (by simp [hnul]), hidx]
  simp [hk]

theorem compile_loop_s3lit (f : Nat) (s tok : List Char) (j : Nat) (fmap : List Bool)
    (fidx : Nat) :
    compile_loop_f (f + 1) s tok j 3 fmap fidx =
      if chAt s j == NUL then .ok j
      else
        if tok_head tok == ',' || tok_head tok == ']' then
          if tok_head tok == ']' then Except.ok j
          else compile_loop_f f s (get_next_pigsty_word s j).1
            (get_next_pigsty_word s j).2 0 fmap fidx
        else .error .missingSeparator := rfl

theorem conf_scan_sim (s : List Char) : ∀ n : Nat, ∀ (state : Nat) (tok : List Char)
    (j f1 f2 fidx : Nat) (fmap : List Bool) (confs : List pigsty_conf) (e : Nat),
    s.length + 2 ≤ f1 + j → s.length + 2 ≤ f2 + j → s.length + 2 - j ≤ n →
    fmap.length = 39 → (3 ≤ state → tok_head tok ≠ ']') →
    compile_loop_f f1 s tok j state fmap fidx = Except.ok e →
    ∃ newc e1, conf_scan_f f2 s tok j confs = (confs ++ newc, e1) ∧
      (newc.map pigsty_conf.index).Nodup ∧
      (∀ k2 ∈ newc.map pigsty_conf.index, fmap.getD k2 false = false) ∧
      (e1 = e ∨ chAt s e1 = NUL) := by
  intro n
  induction n with
  | zero =>
    intro state tok j f1 f2 fidx fmap confs e h1 h2 hm hlen hst3 hc
    have hnul : chAt s j = NUL := chAt_eq_nul_of_le s j (by omega)
    rw [compile_loop_nul s hnul] at hc
    refine ⟨[], j, ?_, by simp, by simp, Or.inl (Except.ok.inj hc)⟩
    rw [conf_scan_nul s hnul]
    simp
  | succ n ih =>
    intro state tok j f1 f2 fidx fmap confs e h1 h2 hm hlen hst3 hc
    by_cases hnul : chAt s j = NUL
    · rw [compile_loop_nul s hnul] at hc
      refine ⟨[], j, ?_, by simp, by simp, Or.inl (Except.ok.inj hc)⟩
      rw [conf_scan_nul s hnul]
      simp
    · have hjlt : j < s.length := lt_length_of_chAt_ne_nul hnul
      obtain ⟨a, rfl⟩ : ∃ a, f1 = a + 1 := ⟨f1 - 1, by omega⟩
      obtain ⟨d, rfl⟩ : ∃ d, f2 = d + 1 := ⟨f2 - 1, by omega⟩
      have hw1gt : j < (get_next_pigsty_word s j).2 := get_next_pigsty_word_gt hnul
      rcases state with _ | _ | _ | st
      · -- state 0: the token is a catalog label
        rw [compile_loop_s0, if_neg (by simp [hnul])] at hc
        split at hc
        · exact absurd hc (by simp)
        · rename_i k hidx
          have hk39 : k < 39 := idx_bound hidx
          have hkhead : tok_head tok ≠ ']' := (idx_head_ne hidx).1
          by_cases hdup : fmap.getD k false = true
          · rw [if_pos hdup] at hc; exact absurd hc (by simp)
          · have hdupf : fmap.getD k false = false := by simpa using hdup
            rw [if_neg (by rw [hdupf]; simp), if_neg (by simp [hkhead])] at hc
            by_cases hsig : k = kSignature
            · subst hsig
              rw [conf_scan_step_sig d s tok j confs hnul hidx]
              by_cases hbr : tok_head (get_next_pigsty_word s j).1 = ']'
              · rw [if_pos (by simp [hbr])]
                by_cases hn1 : chAt s (get_next_pigsty_word s j).2 = NUL
                · exact ⟨[], (get_next_pigsty_word s j).2, by simp, by simp, by simp,
                    Or.inr hn1⟩
                · exfalso
                  have hq1 := lt_length_of_chAt_ne_nul hn1
                  obtain ⟨b, rfl⟩ : ∃ b, a = b + 1 := ⟨a - 1, by omega⟩
                  rw [compile_loop_s1, if_neg (by simp [hn1])] at hc
                  have hne : ¬(((get_next_pigsty_word s j).1 == lc ("=")) = true) := by
                    intro hq2
                    rw [show (get_next_pigsty_word s j).1 = lc ("=") from by simpa using hq2]
                      at hbr
                    exact absurd hbr (by decide)
                  rw [if_neg hne] at hc
                  exact absurd hc (by simp)
              · rw [if_neg (by simp [hbr])]
                have hrec := ih 1 (get_next_pigsty_word s j).1 (get_next_pigsty_word s j).2
                  a d kSignature (fmap.set kSignature true) confs e (by omega) (by omega)
                  (by omega) (by simp [hlen]) (fun h3 => absurd h3 (by omega)) hc
                obtain ⟨newc, e1, hcs, hnd, hunm, hee⟩ := hrec
                refine ⟨newc, e1, hcs, hnd, ?_, hee⟩
                intro k2 hk2
                have h38 := hunm k2 hk2
                by_cases hk238 : kSignature = k2
                · subst hk238
                  rw [getD_set_self _ _ _ _ (by rw [hlen]; decide)] at h38
                  exact absurd h38 (by simp)
                · rw [getD_set_ne _ _ _ _ _ hk238] at h38
                  exact h38
            · have hksig : (k == kSignature) = false := by simp [hsig]
              rw [conf_scan_step_label d s tok j confs k hnul hidx hksig]
              by_cases hn1 : chAt s (get_next_pigsty_word s j).2 = NUL
              · rw [compile_loop_nul s hn1] at hc
                have hw2a : (get_next_pigsty_word s (get_next_pigsty_word s j).2).1 = [] := by
                  rw [word_at_nul s hn1]
                have hw2b : (get_next_pigsty_word s (get_next_pigsty_word s j).2).2 =
                    (get_next_pigsty_word s j).2 := by
                  rw [word_at_nul s hn1]
                rw [hw2a, hw2b, hw2a, hw2b, if_neg (by decide)]
                rw [conf_scan_nul s hn1]
                refine ⟨[⟨k, encode_value []⟩], (get_next_pigsty_word s j).2, rfl, by simp,
                  ?_, Or.inl (Except.ok.inj hc)⟩
                intro k2 hk2
                simp at hk2
                subst hk2
                exact hdupf
              · have hq1 := lt_length_of_chAt_ne_nul hn1
                have hw2gt : (get_next_pigsty_word s j).2 <
                    (get_next_pigsty_word s (get_next_pigsty_word s j).2).2 :=
                  get_next_pigsty_word_gt hn1
                obtain ⟨b, rfl⟩ : ∃ b, a = b + 1 := ⟨a - 1, by omega⟩
                rw [compile_loop_s1, if_neg (by simp [hn1])] at hc
                by_cases heq : (get_next_pigsty_word s j).1 = lc ("=")
                · rw [if_pos (by simp [heq])] at hc
                  have hhead1 : tok_head (get_next_pigsty_word s j).1 = '=' := by
                    rw [heq]; rfl
                  rw [if_neg (by rw [hhead1]; decide)] at hc
                  by_cases hn2 : chAt s
                      (get_next_pigsty_word s (get_next_pigsty_word s j).2).2 = NUL
                  · rw [compile_loop_nul s hn2] at hc
                    have hw3a : (get_next_pigsty_word s
                        (get_next_pigsty_word s (get_next_pigsty_word s j).2).2).1 = [] := by
                      rw [word_at_nul s hn2]
                    have hw3b : (get_next_pigsty_word s
                        (get_next_pigsty_word s (get_next_pigsty_word s j).2).2).2 =
                        (get_next_pigsty_word s (get_next_pigsty_word s j).2).2 := by
                      rw [word_at_nul s hn2]
                    rw [hw3a, hw3b, if_neg (by decide)]
                    rw [conf_scan_nul s hn2]
                    refine ⟨[⟨k, encode_value
                        (get_next_pigsty_word s (get_next_pigsty_word s j).2).1⟩],
                      (get_next_pigsty_word s (get_next_pigsty_word s j).2).2, rfl, by simp,
                      ?_, Or.inl (Except.ok.inj hc)⟩
                    intro k2 hk2
                    simp at hk2
                    subst hk2
                    exact hdupf
                  · have hq2 := lt_length_of_chAt_ne_nul hn2
                    have hw3gt : (get_next_pigsty_word s (get_next_pigsty_word s j).2).2 <
                        (get_next_pigsty_word s
                          (get_next_pigsty_word s (get_next_pigsty_word s j).2).2).2 :=
                      get_next_pigsty_word_gt hn2
                    obtain ⟨c, rfl⟩ : ∃ c, b = c + 1 := ⟨b - 1, by omega⟩
                    rw [compile_loop_s2, if_neg (by simp [hn2])] at hc
                    by_cases hv : field_verifier k
                        (get_next_pigsty_word s (get_next_pigsty_word s j).2).1 = true
                    · rw [if_pos hv] at hc
                      have hvh : tok_head
                          (get_next_pigsty_word s (get_next_pigsty_word s j).2).1 ≠ ']' :=
                        field_verifier_head hv
                      rw [if_neg (by simp [hvh])] at hc
                      by_cases hbr : tok_head (get_next_pigsty_word s
                          (get_next_pigsty_word s (get_next_pigsty_word s j).2).2).1 = ']'
                      · rw [if_pos (by simp [hbr])]
                        by_cases hn3 : chAt s (get_next_pigsty_word s
                            (get_next_pigsty_word s (get_next_pigsty_word s j).2).2).2 = NUL
                        · rw [compile_loop_nul s hn3] at hc
                          refine ⟨[⟨k, encode_value
                              (get_next_pigsty_word s (get_next_pigsty_word s j).2).1⟩],
                            _, rfl, by simp, ?_, Or.inl (Except.ok.inj hc)⟩
                          intro k2 hk2
                          simp at hk2
                          subst hk2
                          exact hdupf
                        · have hq3 := lt_length_of_chAt_ne_nul hn3
                          obtain ⟨cc, rfl⟩ : ∃ cc, c = cc + 1 := ⟨c - 1, by omega⟩
                          rw [compile_loop_s3lit, if_neg (by simp [hn3]),
                            if_pos (by simp [hbr]), if_pos (by simp [hbr])] at hc
                          refine ⟨[⟨k, encode_value
                              (get_next_pigsty_word s (get_next_pigsty_word s j).2).1⟩],
                            _, rfl, by simp, ?_, Or.inl (Except.ok.inj hc)⟩
                          intro k2 hk2
                          simp at hk2
                          subst hk2
                          exact hdupf
                      · rw [if_neg (by simp [hbr])]
                        have hrec := ih 3
                          (get_next_pigsty_word s
                            (get_next_pigsty_word s (get_next_pigsty_word s j).2).2).1
                          (get_next_pigsty_word s
                            (get_next_pigsty_word s (get_next_pigsty_word s j).2).2).2
                          c d k (fmap.set k true)
                          (confs ++ [⟨k, encode_value
                            (get_next_pigsty_word s (get_next_pigsty_word s j).2).1⟩]) e
                          (by omega) (by omega) (by omega) (by simp [hlen])
                          (fun _ => hbr) hc
                        obtain ⟨newc2, e1, hcs2, hnd2, hunm2, hee⟩ := hrec
                        refine ⟨⟨k, encode_value
                            (get_next_pigsty_word s (get_next_pigsty_word s j).2).1⟩ :: newc2,
                          e1, ?_, ?_, ?_, hee⟩
                        · rw [hcs2]; simp
                        · simp only [List.map_cons, List.nodup_cons]
                          constructor
                          · intro hkin
                            have hx := hunm2 k hkin
                            rw [getD_set_self _ _ _ _ (by rw [hlen]; omega)] at hx
                            exact absurd hx (by simp)
                          · exact hnd2
                        · intro k2 hk2
                          simp only [List.map_cons, List.mem_cons] at hk2
                          rcases hk2 with rfl | hk2
                          · exact hdupf
                          · have h2x := hunm2 k2 hk2
                            by_cases hkk : k = k2
                            · subst hkk
                              rw [getD_set_self _ _ _ _ (by rw [hlen]; omega)] at h2x
                              exact absurd h2x (by simp)
                            · rw [getD_set_ne _ _ _ _ _ hkk] at h2x
                              exact h2x
                    · rw [if_neg (by simp [hv])] at hc
                      exact absurd hc (by simp)
                · rw [if_neg (by simp [heq])] at hc
                  exact absurd hc (by simp)
      · -- state 1: the token is the equals sign
        rw [compile_loop_s1, if_neg (by simp [hnul])] at hc
        by_cases heq : tok = lc ("=")
        · rw [if_pos (by simp [heq])] at hc
          have hh : tok_head tok = '=' := by rw [heq]; rfl
          rw [if_neg (by rw [hh]; decide)] at hc
          have hidx : get_pigsty_field_index tok = none :=
            idx_none_of_head (Or.inr (Or.inr (Or.inl hh)))
          rw [conf_scan_step_skip d s tok j confs hnul hidx]
          by_cases hbr : tok_head (get_next_pigsty_word s j).1 = ']'
          · rw [if_pos (by simp [hbr])]
            by_cases hn1 : chAt s (get_next_pigsty_word s j).2 = NUL
            · exact ⟨[], (get_next_pigsty_word s j).2, by simp, by simp, by simp, Or.inr hn1⟩
            · exfalso
              have hq1 := lt_length_of_chAt_ne_nul hn1
              obtain ⟨b, rfl⟩ : ∃ b, a = b + 1 := ⟨a - 1, by omega⟩
              rw [compile_loop_s2, if_neg (by simp [hn1])] at hc
              by_cases hv : field_verifier fidx (get_next_pigsty_word s j).1 = true
              · exact absurd hbr (field_verifier_head hv)
              · rw [if_neg (by simp [hv])] at hc
                exact absurd hc (by simp)
          · rw [if_neg (by simp [hbr])]
            exact ih 2 (get_next_pigsty_word s j).1 (get_next_pigsty_word s j).2 a d fidx
              fmap confs e (by omega) (by omega) (by omega) hlen
              (fun h3 => absurd h3 (by omega)) hc
        · rw [if_neg (by simp [heq])] at hc
          exact absurd hc (by simp)
      · -- state 2: the token is a value accepted by the field verifier
        rw [compile_loop_s2, if_neg (by simp [hnul])] at hc
        by_cases hv : field_verifier fidx tok = true
        · rw [if_pos hv] at hc
          have hvh : tok_head tok ≠ ']' := field_verifier_head hv
          rw [if_neg (by simp [hvh])] at hc
          have hidx : get_pigsty_field_index tok = none := field_verifier_not_label hv
          rw [conf_scan_step_skip d s tok j confs hnul hidx]
          by_cases hbr : tok_head (get_next_pigsty_word s j).1 = ']'
          · rw [if_pos (by simp [hbr])]
            by_cases hn1 : chAt s (get_next_pigsty_word s j).2 = NUL
            · exact ⟨[], (get_next_pigsty_word s j).2, by simp, by simp, by simp, Or.inr hn1⟩
            · have hq1 := lt_length_of_chAt_ne_nul hn1
              obtain ⟨b, rfl⟩ : ∃ b, a = b + 1 := ⟨a - 1, by omega⟩
              rw [compile_loop_s3lit, if_neg (by simp [hn1]), if_pos (by simp [hbr]),
                if_pos (by simp [hbr])] at hc
              exact ⟨[], (get_next_pigsty_word s j).2, by simp, by simp, by simp,
                Or.inl (Except.ok.inj hc)⟩
          · rw [if_neg (by simp [hbr])]
            exact ih 3 (get_next_pigsty_word s j).1 (get_next_pigsty_word s j).2 a d fidx
              fmap confs e (by omega) (by omega) (by omega) hlen (fun _ => hbr) hc
        · rw [if_neg (by simp [hv])] at hc
          exact absurd hc (by simp)
      · -- state 3 and above: the token is a separator
        have htok : tok_head tok ≠ ']' := hst3 (by omega)
        rw [compile_loop_s3, if_neg (by simp [hnul])] at hc
        by_cases hsep : (tok_head tok == ',' || tok_head tok == ']') = true
        · rw [if_pos hsep] at hc
          rw [if_neg (by simp [htok])] at hc
          have hcomma : tok_head tok = ',' := by
            rcases (by simpa using hsep : tok_head tok = ',' ∨ tok_head tok = ']') with h | h
            · exact h
            · exact absurd h htok
          have hidx : get_pigsty_field_index tok = none :=
            idx_none_of_head (Or.inr (Or.inl hcomma))
          rw [conf_scan_step_skip d s tok j confs hnul hidx]
          by_cases hbr : tok_head (get_next_pigsty_word s j).1 = ']'
          · rw [if_pos (by simp [hbr])]
            by_cases hn1 : chAt s (get_next_pigsty_word s j).2 = NUL
            · exact ⟨[], (get_next_pigsty_word s j).2, by simp, by simp, by simp, Or.inr hn1⟩
            · exfalso
              have hq1 := lt_length_of_chAt_ne_nul hn1
              obtain ⟨b, rfl⟩ : ∃ b, a = b + 1 := ⟨a - 1, by omega⟩
              rw [compile_loop_s0, if_neg (by simp [hn1])] at hc
              rw [idx_none_of_head (Or.inl hbr)] at hc
              simp at hc
          · rw [if_neg (by simp [hbr])]
            exact ih 0 (get_next_pigsty_word s j).1 (get_next_pigsty_word s j).2 a d fidx
              fmap confs e (by omega) (by omega) (by omega) hlen
              (fun h3 => absurd h3 (by omega)) hc
        · rw [if_neg hsep] at hc
          exact absurd hc (by simp)

theorem sig_scan_nul (s : List Char) (es : List pigsty_entry) {j : Nat}
    (h : chAt s j = NUL) :
    ∀ (fuel : Nat) (tok : List Char), sig_scan_f fuel s es tok j = .notFound j := by
  intro fuel tok
  cases fuel with
  | zero => rfl
  | succ g => simp [sig_scan_f, h]

theorem sig_scan_notFound_nul (s : List Char) (es : List pigsty_entry) :
    ∀ (fuel : Nat) (tok : List Char) (j j1 : Nat), s.length + 2 ≤ fuel + j →
      sig_scan_f fuel s es tok j = .notFound j1 → chAt s j1 = NUL := by
  intro fuel
  induction fuel with
  | zero =>
    intro tok j j1 hf h
    simp only [sig_scan_f] at h
    cases h
    exact chAt_eq_nul_of_le s _ (by omega)
  | succ g ih =>
    intro tok j j1 hf h
    simp only [sig_scan_f] at h
    split at h
    · rename_i hnul
      cases h
      simpa using hnul
    · rename_i hnul
      have hne : chAt s j ≠ NUL := by simpa using hnul
      split at h
      · split at h <;> simp at h
      · have hgt := get_next_pigsty_word_gt hne
        exact ih _ _ _ (by omega) h

theorem mk_at_nul (s : List Char) (es : List pigsty_entry) {i : Nat}
    (h : chAt s i = NUL) :
    mk_pigsty_entry_from_compiled_buffer es s i = (some es, i) := by
  have hw : get_next_pigsty_word s i = ([], i) := word_at_nul s h
  simp only [mk_pigsty_entry_from_compiled_buffer, hw]
  rw [sig_scan_nul s es h]

theorem make_all_nul (s : List Char) {i : Nat} (h : chAt s i = NUL) :
    ∀ (f : Nat) (es es1 : List pigsty_entry), make_all_f f s i es = some es1 →
      es1 = es := by
  intro f es es1 hmk
  cases f with
  | zero =>
    simp only [make_all_f] at hmk
    exact (Option.some.inj hmk).symm
  | succ g =>
    simp only [make_all_f, mk_at_nul s es h, h] at hmk
    simp at hmk
    exact hmk.symm

theorem compile_loop_ge (s : List Char) : ∀ (f : Nat) (tok : List Char)
    (j state fidx : Nat) (fmap : List Bool) (e : Nat),
    compile_loop_f f s tok j state fmap fidx = .ok e → j ≤ e := by
  intro f
  induction f with
  | zero =>
    intro tok j st fidx fmap e hc
    exact Nat.le_of_eq (Except.ok.inj hc)
  | succ g ih =>
    intro tok j st fidx fmap e hc
    by_cases hnul : chAt s j = NUL
    · rw [compile_loop_nul s hnul] at hc
      exact Nat.le_of_eq (Except.ok.inj hc)
    · have hw := get_next_pigsty_word_ge s j
      rcases st with _ | _ | _ | st
      · rw [compile_loop_s0, if_neg (by simp [hnul])] at hc
        split at hc
        · exact absurd hc (by simp)
        · split at hc
          · exact absurd hc (by simp)
          · split at hc
            · exact Nat.le_of_eq (Except.ok.inj hc)
            · exact Nat.le_trans hw (ih _ _ _ _ _ _ hc)
      · rw [compile_loop_s1, if_neg (by simp [hnul])] at hc
        split at hc
        · split at hc
          · exact Nat.le_of_eq (Except.ok.inj hc)
          · exact Nat.le_trans hw (ih _ _ _ _ _ _ hc)
        · exact absurd hc (by simp)
      · rw [compile_loop_s2, if_neg (by simp [hnul])] at hc
        split at hc
        · split at hc
          · exact Nat.le_of_eq (Except.ok.inj hc)
          · exact Nat.le_trans hw (ih _ _ _ _ _ _ hc)
        · exact absurd hc (by simp)
      · rw [compile_loop_s3, if_neg (by simp [hnul])] at hc
        split at hc
        · split at hc
          · exact Nat.le_of_eq (Except.ok.inj hc)
          · exact Nat.le_trans hw (ih _ _ _ _ _ _ hc)
        · exact absurd hc (by simp)

theorem compile_next_gt (s : List Char) {i e : Nat} (hnul : chAt s i ≠ NUL)
    (hc : compile_next_buffered_pigsty_entry s i = .ok e) : i < e := by
  simp only [compile_next_buffered_pigsty_entry] at hc
  have hgt := get_next_pigsty_word_gt hnul
  split at hc
  · have := Except.ok.inj hc
    omega
  · split at hc
    · exact absurd hc (by simp)
    · have hge := compile_loop_ge s (bfuel s) _ _ _ _ _ _ hc
      have hge2 := get_next_pigsty_word_ge s (get_next_pigsty_word s i).2
      omega

theorem word_head_nul (s : List Char) (i : Nat)
    (hh : tok_head (get_next_pigsty_word s i).1 = NUL) :
    chAt s (get_next_pigsty_word s i).2 = NUL := by
  by_cases hbp : chAt s (skip_pigsty_blank s i) = NUL
  · simp only [get_next_pigsty_word]
    rw [if_pos (by rw [hbp]; decide)]
    have hws : word_scan s (skip_pigsty_blank s i) = skip_pigsty_blank s i := by
      rw [word_scan_unfold, hbp]
      rw [if_neg (by simp)]
    rw [hws]
    exact hbp
  · exfalso
    simp only [get_next_pigsty_word] at hh
    by_cases hstruct : (!(chAt s (skip_pigsty_blank s i) == '=') &&
        !(chAt s (skip_pigsty_blank s i) == ',') &&
        !(chAt s (skip_pigsty_blank s i) == '[')) = true
    · rw [if_pos hstruct] at hh
      have hnb := skip_pigsty_blank_not_blank s i
      have hlt : skip_pigsty_blank s i < word_scan s (skip_pigsty_blank s i) := by
        rw [word_scan_unfold]
        rw [if_pos (by simp [hnb, hbp])]
        split
        · have := quote_scan_ge s (skip_pigsty_blank s i + 1)
          omega
        · split
          · omega
          · have := word_scan_f_ge s (s.length + 7) (skip_pigsty_blank s i + 1)
            omega
      rw [(token_of_head hlt).2] at hh
      exact hbp hh
    · rw [if_neg hstruct] at hh
      have hlt : skip_pigsty_blank s i < skip_pigsty_blank s i + 1 := Nat.lt_succ_self _
      rw [(token_of_head hlt).2] at hh
      exact hbp hh

theorem mk_sim (s : List Char) {i e j1 : Nat} {es es1 : List pigsty_entry}
    (hc : compile_next_buffered_pigsty_entry s i = .ok e)
    (hmk : mk_pigsty_entry_from_compiled_buffer es s i = (some es1, j1)) :
    (∀ en ∈ es1, en ∈ es ∨ (conf_indices en).Nodup) ∧ (j1 = e ∨ chAt s j1 = NUL) := by
  simp only [compile_next_buffered_pigsty_entry] at hc
  simp only [mk_pigsty_entry_from_compiled_buffer] at hmk
  by_cases hh : tok_head (get_next_pigsty_word s i).1 = NUL
  · rw [if_pos (by simp [hh])] at hc
    have he := Except.ok.inj hc
    have hcn : chAt s (get_next_pigsty_word s i).2 = NUL := word_head_nul s i hh
    rw [sig_scan_nul s es hcn] at hmk
    simp at hmk
    obtain ⟨hes, hj⟩ := hmk
    refine ⟨fun en hen => Or.inl (by rw [← hes] at hen; exact hen), Or.inl (by omega)⟩
  · rw [if_neg (by simp [hh])] at hc
    by_cases hop : tok_head (get_next_pigsty_word s i).1 = '['
    · rw [if_neg (by simp [hop])] at hc
      cases hscan : sig_scan_f (bfuel s) s es (get_next_pigsty_word s i).1
          (get_next_pigsty_word s i).2 with
      | redecl nm j2 => rw [hscan] at hmk; simp at hmk
      | notFound j2 =>
        rw [hscan] at hmk
        simp at hmk
        obtain ⟨hes, hj⟩ := hmk
        have hcn : chAt s j2 = NUL := sig_scan_notFound_nul s es (bfuel s) _ _ _
          (by unfold bfuel; omega) hscan
        refine ⟨fun en hen => Or.inl (by rw [← hes] at hen; exact hen),
          Or.inr (by rw [← hj]; exact hcn)⟩
      | found nm j2 =>
        rw [hscan] at hmk
        simp at hmk
        have hval : ∃ newc e1, conf_scan_f (bfuel s) s (get_next_pigsty_word s i).1
            (get_next_pigsty_word s i).2 [] = (newc, e1) ∧
            (newc.map pigsty_conf.index).Nodup ∧ (e1 = e ∨ chAt s e1 = NUL) := by
          by_cases hcn0 : chAt s (get_next_pigsty_word s i).2 = NUL
          · have ha : (get_next_pigsty_word s (get_next_pigsty_word s i).2).2 =
                (get_next_pigsty_word s i).2 := by rw [word_at_nul s hcn0]
            rw [ha, compile_loop_nul s hcn0] at hc
            exact ⟨[], (get_next_pigsty_word s i).2, conf_scan_nul s hcn0 _ _ _, by simp,
              Or.inl (Except.ok.inj hc)⟩
          · have hidx : get_pigsty_field_index (get_next_pigsty_word s i).1 = none :=
              idx_none_of_head (Or.inr (Or.inr (Or.inr (Or.inl hop))))
            rw [show bfuel s = (s.length + 7) + 1 from rfl]
            rw [conf_scan_step_skip (s.length + 7) s _ _ [] hcn0 hidx]
            by_cases hbr : tok_head
                (get_next_pigsty_word s (get_next_pigsty_word s i).2).1 = ']'
            · rw [if_pos (by simp [hbr])]
              by_cases hcn1 : chAt s
                  (get_next_pigsty_word s (get_next_pigsty_word s i).2).2 = NUL
              · exact ⟨[], _, rfl, by simp, Or.inr hcn1⟩
              · exfalso
                rw [show bfuel s = (s.length + 7) + 1 from rfl] at hc
                rw [compile_loop_s0, if_neg (by simp [hcn1])] at hc
                rw [idx_none_of_head (Or.inl hbr)] at hc
                simp at hc
            · rw [if_neg (by simp [hbr])]
              have hsim := conf_scan_sim s (s.length + 2) 0
                (get_next_pigsty_word s (get_next_pigsty_word s i).2).1
                (get_next_pigsty_word s (get_next_pigsty_word s i).2).2
                (bfuel s) (s.length + 7) 0 (List.replicate 39 false) [] e
                (by unfold bfuel; omega) (by omega) (by omega) (by simp)
                (fun h3 => absurd h3 (by omega)) hc
              obtain ⟨newc, e1, hcs, hnd, hx, hee⟩ := hsim
              exact ⟨newc, e1, by simpa using hcs, hnd, hee⟩
        obtain ⟨newc, e1, hval1, hnd, hee⟩ := hval
        rw [hval1] at hmk
        simp at hmk
        obtain ⟨hes, hj⟩ := hmk
        constructor
        · intro en hen
          rw [← hes] at hen
          rcases List.mem_append.mp hen with hmem | hmem
          · exact Or.inl hmem
          · right
            have heq : en = ⟨nm, newc⟩ := by simpa using hmem
            rw [heq]
            simpa [conf_indices] using hnd
        · rcases hee with hx | hx
          · exact Or.inl (by rw [← hj, hx])
          · exact Or.inr (by rw [← hj]; exact hx)
    · rw [if_pos (by simp [hop])] at hc
      exact absurd hc (by simp)

set_option maxHeartbeats 1000000 in
theorem make_all_sim (s : List Char) : ∀ n : Nat, ∀ (f1 f2 i : Nat)
    (es : List pigsty_entry),
    s.length + 2 ≤ f1 + i → s.length + 2 ≤ f2 + i → s.length + 2 - i ≤ n →
    (∃ r, compile_all_f f1 s i = .ok r) →
    ∀ es1, make_all_f f2 s i es = some es1 →
      ∀ en ∈ es1, en ∈ es ∨ (conf_indices en).Nodup := by
  intro n
  induction n with
  | zero =>
    intro f1 f2 i es h1 h2 hm hok es1 hmk en hen
    have hnul : chAt s i = NUL := chAt_eq_nul_of_le s i (by omega)
    exact Or.inl ((make_all_nul s hnul f2 es es1 hmk) ▸ hen)
  | succ n ih =>
    intro f1 f2 i es h1 h2 hm hok es1 hmk en hen
    by_cases hnul : chAt s i = NUL
    · exact Or.inl ((make_all_nul s hnul f2 es es1 hmk) ▸ hen)
    · have hilt := lt_length_of_chAt_ne_nul hnul
      obtain ⟨a, rfl⟩ : ∃ a, f1 = a + 1 := ⟨f1 - 1, by omega⟩
      obtain ⟨d, rfl⟩ : ∃ d, f2 = d + 1 := ⟨f2 - 1, by omega⟩
      obtain ⟨r, hok⟩ := hok
      cases hcn : compile_next_buffered_pigsty_entry s i with
      | error er =>
        simp only [compile_all_f, hcn] at hok
        exact absurd hok (by simp)
      | ok e =>
        simp only [compile_all_f, hcn] at hok
        simp only [make_all_f] at hmk
        cases hmkb : mk_pigsty_entry_from_compiled_buffer es s i with
        | mk o j1 =>
          rw [hmkb] at hmk
          cases o with
          | none => simp at hmk
          | some esA =>
            simp only at hmk
            obtain ⟨hents, hjs⟩ := mk_sim s hcn hmkb
            by_cases hjn : chAt s j1 = NUL
            · rw [if_pos (by simp [hjn])] at hmk
              have : esA = es1 := Option.some.inj hmk
              exact hents en (this ▸ hen)
            · rw [if_neg (by simp [hjn])] at hmk
              have hje : j1 = e := by
                rcases hjs with h | h
                · exact h
                · exact absurd h hjn
              subst hje
              rw [if_neg (by simp [hjn])] at hok
              have hprog : i < j1 := compile_next_gt s hnul hcn
              rcases ih a d j1 esA (by omega) (by omega) (by omega) ⟨r, hok⟩ es1 hmk en hen
                with h | h
              · exact hents en h
              · exact Or.inr h

/-- Claim C9: a field label repeated within one entry block makes pass 1
(the four-state token loop of `compile_next_buffered_pigsty_entry`) fail
with a duplicate-field error, so `compile_pigsty_buffer` reports failure,
the Semantic Builder never runs, and no entry is built for that document;
consequently, in every successfully loaded store each entry carries at
most one field configuration per field index. -/
theorem c9_duplicate_field_rejected :
    (∀ (s : List Char) (k : Nat),
      compile_all_f (bfuel s) s 0 = .error (.duplicateField k) →
      built_store s = none ∧ load_pigsty_data s = none) ∧
    (∀ (s : List Char) (es : List pigsty_entry),
      load_pigsty_data s = some es → ∀ e ∈ es, (conf_indices e).Nodup) := by
  constructor
  · intro s k h
    have hcb : compile_pigsty_buffer s = false := by
      unfold compile_pigsty_buffer
      rw [h]
      rfl
    constructor
    · simp [built_store, hcb]
    · simp [load_pigsty_data, hcb]
  · intro s es hl e he
    unfold load_pigsty_data at hl
    by_cases hcp : compile_pigsty_buffer s = true
    · rw [if_pos hcp] at hl
      cases hmd : make_pigsty_data_from_loaded_data s with
      | none => rw [hmd] at hl; exact absurd hl (by simp)
      | some es0 =>
        rw [hmd] at hl
        have hl2 : (if verify_required_fields es0 = true then some es0 else none)
            = some es := hl
        by_cases hv : verify_required_fields es0 = true
        · rw [if_pos hv] at hl2
          injection hl2 with hinj
          subst hinj
          have hok : ∃ r, compile_all_f (bfuel s) s 0 = .ok r := by
            unfold compile_pigsty_buffer at hcp
            cases hca : compile_all_f (bfuel s) s 0 with
            | error er =>
              rw [hca] at hcp
              exact absurd hcp (by simp [Except.toBool])
            | ok r => exact ⟨r, rfl⟩
          rcases make_all_sim s (s.length + 2) (bfuel s) (bfuel s) 0 []
            (by unfold bfuel; omega) (by unfold bfuel; omega) (by omega) hok _ hmd e he
            with h | h
          · exact absurd h (List.not_mem_nil e)
          · exact h
        · rw [if_neg hv] at hl2; exact absurd hl2 (by simp)
    · rw [if_neg hcp] at hl; exact absurd hl (by simp)

/-- Witness for claim C9: `doc_c9` repeats `ip.ttl` (field index 7) inside
one block, pass 1 reports the duplicate and both the built store and the
load are empty; `doc_good` loads successfully and its single entry has
pairwise distinct field indices. -/
theorem c9_witness :
    (compile_all_f (bfuel doc_c9) doc_c9 0 =
        Except.error (syn_error.duplicateField 7) ∧
      built_store doc_c9 = none ∧ load_pigsty_data doc_c9 = none) ∧
    (load_pigsty_data doc_good = some [entry_t] ∧
      ∀ e ∈ [entry_t], (conf_indices e).Nodup) :=
  ⟨⟨by rfl, c9_duplicate_field_rejected.1 doc_c9 7 (by rfl)⟩,
   ⟨by decide, c9_duplicate_field_rejected.2 doc_good [entry_t] (by decide)⟩⟩
